import Mathlib

/-!
Verification of the NOM (Network Object Mirroring) core against its Python
source (serialize.py, packet.py, proxy.py, service.py).

The codec of serialize.py is embedded shallowly: Python values that the codec
handles become the inductive type `Value`; each serializer class's
`Serialize`/`Deserialize` pair becomes a pure encoder into `List Nat`
(byte values 0..255) and a prefix-consuming decoder.  Encoding is
`Option`-valued because `struct.pack` raises on out-of-range integers.
Decoding carries fuel (one unit per decoded value); the top-level entry
point supplies `input length + 1`, which is enough because every encoded
value occupies at least one byte (its tag).
-/

set_option maxRecDepth 8192

namespace Nom

/-! ## Byte-level primitives (struct.pack / struct.unpack) -/

/-- Big-endian 4-byte encoding of a signed 32-bit integer, as in
`struct.pack('!l', n)` (IntSerializer.Serialize).  Returns `none` when `n`
is out of range, as `struct.pack` raises there. -/
def i32Enc (n : Int) : Option (List Nat) :=
  if -(2^31) ≤ n ∧ n < 2^31 then
    let m : Nat := (n % (2^32)).toNat
    some [m / 2^24 % 256, m / 2^16 % 256, m / 2^8 % 256, m % 256]
  else
    none

/-- Big-endian 4-byte decode of a signed 32-bit integer, as in
`struct.unpack('!l', s)` (IntSerializer.Deserialize).  Fails when fewer
than 4 bytes remain (`struct.error`). -/
def i32Dec (bs : List Nat) : Option (Int × List Nat) :=
  match bs with
  | b0 :: b1 :: b2 :: b3 :: rest =>
    let m : Nat := ((b0 * 256 + b1) * 256 + b2) * 256 + b3
    let v : Int := if m < 2^31 then (m : Int) else (m : Int) - 2^32
    some (v, rest)
  | _ => none

/-- Single-byte encoding, as in `struct.pack('!B', n)` (ByteSerializer):
fails outside 0..255. -/
def u8Enc (n : Nat) : Option (List Nat) :=
  if n < 256 then some [n] else none

/-- Single-byte decode, as in `struct.unpack('!B', s)`. -/
def u8Dec (bs : List Nat) : Option (Nat × List Nat) :=
  match bs with
  | b :: rest => some (b, rest)
  | [] => none

theorem i32Dec_i32Enc (n : Int) (bs rest : List Nat)
    (hn : -(2^31) ≤ n ∧ n < 2^31) (henc : i32Enc n = some bs) :
    i32Dec (bs ++ rest) = some (n, rest) := by
  unfold i32Enc at henc
  rw [if_pos hn] at henc
  obtain ⟨hlo, hhi⟩ := hn
  cases henc
  unfold i32Dec
  simp only [List.cons_append, List.nil_append]
  have hmod : (0:Int) ≤ n % 2^32 := Int.emod_nonneg n (by norm_num)
  have hmodlt : n % 2^32 < 2^32 := Int.emod_lt_of_pos n (by norm_num)
  have hmval : n % 2^32 = if 0 ≤ n then n else n + 2^32 := by
    split <;> omega
  set m : Nat := (n % 2^32).toNat with hm
  have hmlt : m < 2^32 := by omega
  have hrecon :
      ((m / 2^24 % 256 * 256 + m / 2^16 % 256) * 256 + m / 2^8 % 256) * 256 + m % 256 = m := by
    omega
  rw [hrecon]
  split
  · simp only [Option.some.injEq, Prod.mk.injEq, and_true]
    omega
  · simp only [Option.some.injEq, Prod.mk.injEq, and_true]
    omega

theorem u8Dec_u8Enc (n : Nat) (bs rest : List Nat)
    (henc : u8Enc n = some bs) :
    u8Dec (bs ++ rest) = some (n, rest) := by
  unfold u8Enc at henc
  split at henc
  · cases henc; rfl
  · exact absurd henc (by simp)

/-! ## UTF-8 (TextSerializer's `PREFERRED_ENCODING`)

Mirrors the CPython 2 `utf-8` codec as the codec uses it.  CPython 2 also
encodes and decodes lone surrogates (U+D800..U+DFFF) without error, so no
surrogate special case appears here.  The decoder below models the
`'replace'` error mode (`TEXT_ERROR_MODE`) by emitting U+FFFD for a
malformed lead byte; the exact number of bytes CPython consumes per
malformed sequence is approximated as one, which no encoder output ever
exercises. -/

def utf8EncChar (c : Nat) : List Nat :=
  if c < 0x80 then [c]
  else if c < 0x800 then [0xC0 + c / 0x40, 0x80 + c % 0x40]
  else if c < 0x10000 then
    [0xE0 + c / 0x1000, 0x80 + c / 0x40 % 0x40, 0x80 + c % 0x40]
  else
    [0xF0 + c / 0x40000, 0x80 + c / 0x1000 % 0x40, 0x80 + c / 0x40 % 0x40, 0x80 + c % 0x40]

def utf8Enc (cs : List Nat) : List Nat := (cs.map utf8EncChar).flatten

/-- Decode one scalar from a non-empty byte stream (head passed separately);
returns the code point and the unconsumed tail. -/
def utf8DecStep (b : Nat) (rest : List Nat) : Nat × List Nat :=
  if b < 0x80 then (b, rest)
  else if 0xC0 ≤ b ∧ b < 0xE0 then
    match rest with
    | b1 :: r1 =>
      if 0x80 ≤ b1 ∧ b1 < 0xC0 then ((b - 0xC0) * 0x40 + (b1 - 0x80), r1)
      else (0xFFFD, rest)
    | [] => (0xFFFD, rest)
  else if 0xE0 ≤ b ∧ b < 0xF0 then
    match rest with
    | b1 :: b2 :: r2 =>
      if (0x80 ≤ b1 ∧ b1 < 0xC0) ∧ (0x80 ≤ b2 ∧ b2 < 0xC0) then
        ((b - 0xE0) * 0x1000 + (b1 - 0x80) * 0x40 + (b2 - 0x80), r2)
      else (0xFFFD, rest)
    | _ => (0xFFFD, rest)
  else if 0xF0 ≤ b ∧ b < 0xF8 then
    match rest with
    | b1 :: b2 :: b3 :: r3 =>
      if (0x80 ≤ b1 ∧ b1 < 0xC0) ∧ (0x80 ≤ b2 ∧ b2 < 0xC0) ∧ (0x80 ≤ b3 ∧ b3 < 0xC0) then
        ((b - 0xF0) * 0x40000 + (b1 - 0x80) * 0x1000 + (b2 - 0x80) * 0x40 + (b3 - 0x80), r3)
      else (0xFFFD, rest)
    | _ => (0xFFFD, rest)
  else (0xFFFD, rest)

def utf8DecLoop (fuel : Nat) (bs : List Nat) : List Nat :=
  match fuel, bs with
  | 0, _ => []
  | _, [] => []
  | fuel + 1, b :: t =>
    let (c, r) := utf8DecStep b t
    c :: utf8DecLoop fuel r

/-- Decode a whole byte string, as `data.decode('utf-8', 'replace')` does.
Each step consumes at least one byte, so `bs.length` fuel always suffices. -/
def utf8Decode (bs : List Nat) : List Nat := utf8DecLoop bs.length bs

theorem utf8DecStep_utf8EncChar (c : Nat) (rest : List Nat) (hc : c < 0x110000) :
    (match utf8EncChar c ++ rest with
     | b :: t => utf8DecStep b t
     | [] => (0, [])) = (c, rest) := by
  unfold utf8EncChar
  by_cases h1 : c < 0x80
  · rw [if_pos h1]
    simp only [List.cons_append, List.nil_append]
    unfold utf8DecStep
    rw [if_pos h1]
  · rw [if_neg h1]
    by_cases h2 : c < 0x800
    · rw [if_pos h2]
      simp only [List.cons_append, List.nil_append]
      unfold utf8DecStep
      rw [if_neg (by omega), if_pos (by omega)]
      simp only
      rw [if_pos (by omega)]
      simp only [Prod.mk.injEq]
      exact ⟨by omega, trivial⟩
    · rw [if_neg h2]
      by_cases h3 : c < 0x10000
      · rw [if_pos h3]
        simp only [List.cons_append, List.nil_append]
        unfold utf8DecStep
        rw [if_neg (by omega), if_neg (by omega), if_pos (by omega)]
        simp only
        rw [if_pos (by omega)]
        simp only [Prod.mk.injEq]
        exact ⟨by omega, trivial⟩
      · rw [if_neg h3]
        simp only [List.cons_append, List.nil_append]
        unfold utf8DecStep
        rw [if_neg (by omega), if_neg (by omega), if_neg (by omega), if_pos (by omega)]
        simp only
        rw [if_pos (by omega)]
        simp only [Prod.mk.injEq]
        exact ⟨by omega, trivial⟩

theorem utf8EncChar_length_pos (c : Nat) : 0 < (utf8EncChar c).length := by
  unfold utf8EncChar
  split
  · simp
  · split
    · simp
    · split <;> simp

theorem utf8DecLoop_utf8Enc (cs : List Nat) :
    ∀ fuel, (∀ c ∈ cs, c < 0x110000) → cs.length ≤ fuel →
    utf8DecLoop fuel (utf8Enc cs) = cs := by
  induction cs with
  | nil =>
    intro fuel _ _
    unfold utf8Enc
    cases fuel <;> rfl
  | cons c t ih =>
    intro fuel hcs hlen
    have hc : c < 0x110000 := hcs c (by simp)
    have hlen' : t.length + 1 ≤ fuel := by simpa using hlen
    obtain ⟨f, rfl⟩ : ∃ f, fuel = f + 1 := ⟨fuel - 1, by omega⟩
    have henc : utf8Enc (c :: t) = utf8EncChar c ++ utf8Enc t := by
      unfold utf8Enc
      simp
    rw [henc]
    have hstep := utf8DecStep_utf8EncChar c (utf8Enc t) hc
    have hpos := utf8EncChar_length_pos c
    obtain ⟨b, eb, hb⟩ : ∃ b eb, utf8EncChar c = b :: eb := by
      cases hchar : utf8EncChar c with
      | nil => rw [hchar] at hpos; simp at hpos
      | cons b eb => exact ⟨b, eb, rfl⟩
    rw [hb] at hstep ⊢
    simp only [List.cons_append] at hstep ⊢
    unfold utf8DecLoop
    simp only
    rw [hstep]
    simp only [List.cons.injEq, true_and]
    exact ih f (fun x hx => hcs x (by simp [hx])) (by simpa using hlen)

theorem length_le_utf8Enc_length (cs : List Nat) : cs.length ≤ (utf8Enc cs).length := by
  induction cs with
  | nil => simp [utf8Enc]
  | cons c t ih =>
    have : utf8Enc (c :: t) = utf8EncChar c ++ utf8Enc t := by
      unfold utf8Enc; simp
    rw [this]
    have := utf8EncChar_length_pos c
    simp only [List.length_append, List.length_cons]
    omega

/-- Round-trip of the text payload: decoding the UTF-8 encoding of any
sequence of CPython 2 code points (below 0x110000) restores it. -/
theorem utf8Decode_utf8Enc (cs : List Nat) (h : ∀ c ∈ cs, c < 0x110000) :
    utf8Decode (utf8Enc cs) = cs :=
  utf8DecLoop_utf8Enc cs (utf8Enc cs).length h (length_le_utf8Enc_length cs)

/-! ## Decimal strings (LongSerializer: `str(obj)` / `long(...)`) -/

/-- Little-endian decimal digits, structurally recursive on fuel so that
concrete values evaluate inside the kernel; `decDigitsAux n n` equals
`Nat.digits 10 n`. -/
def decDigitsAux : Nat → Nat → List Nat
  | 0, _ => []
  | _ + 1, 0 => []
  | fuel + 1, n => (n % 10) :: decDigitsAux fuel (n / 10)

theorem decDigitsAux_eq_digits : ∀ fuel n, n ≤ fuel → decDigitsAux fuel n = Nat.digits 10 n := by
  intro fuel
  induction fuel with
  | zero =>
    intro n hn
    obtain rfl : n = 0 := by omega
    show ([] : List Nat) = Nat.digits 10 0
    rw [Nat.digits_zero]
  | succ f ih =>
    intro n hn
    cases n with
    | zero =>
      show ([] : List Nat) = Nat.digits 10 0
      rw [Nat.digits_zero]
    | succ m =>
      show (m + 1) % 10 :: decDigitsAux f ((m + 1) / 10) = Nat.digits 10 (m + 1)
      rw [Nat.digits_def' (by norm_num : (1 : Nat) < 10) (Nat.succ_pos m)]
      rw [ih ((m + 1) / 10) (by
        have := Nat.div_lt_self (Nat.succ_pos m) (by norm_num : 1 < 10)
        omega)]

/-- Decimal digit string of a natural number, most significant digit first,
as `str` produces for a non-negative `long` (CPython 2 `str` of a long has
no `L` suffix). -/
def decDigits (m : Nat) : List Nat :=
  if m = 0 then [48] else ((decDigitsAux m m).reverse.map (· + 48))

theorem decDigits_eq (m : Nat) :
    decDigits m = if m = 0 then [48] else ((Nat.digits 10 m).reverse.map (· + 48)) := by
  unfold decDigits
  rw [decDigitsAux_eq_digits m m le_rfl]

/-- Wire form of a long: `str(obj)` (optional `-` sign, then decimal digits). -/
def longEnc (n : Int) : List Nat :=
  if n < 0 then 45 :: decDigits n.natAbs else decDigits n.toNat

/-- Parse an unsigned decimal digit string (the digits part of `long(s)`).
Fails on an empty string or a non-digit, as `long` raises `ValueError`.
CPython also tolerates surrounding whitespace, a `+` sign and a trailing
`L`, none of which the encoder emits. -/
def parseDigits (ds : List Nat) : Option Nat :=
  if ds ≠ [] ∧ ∀ d ∈ ds, 48 ≤ d ∧ d < 58 then
    some (ds.foldl (fun acc d => acc * 10 + (d - 48)) 0)
  else
    Option.none

/-- Parse a (possibly negative) decimal string, as `long(s)` does. -/
def longParse (bs : List Nat) : Option Int :=
  match bs with
  | b :: ds =>
    if b = 45 then
      match parseDigits ds with
      | some m => some (-(m : Int))
      | Option.none => Option.none
    else
      match parseDigits (b :: ds) with
      | some m => some ((m : Int))
      | Option.none => Option.none
  | [] => Option.none

theorem foldl_digits_reverse (L : List Nat) :
    ∀ acc, ((L.reverse.map (· + 48)).foldl (fun acc d => acc * 10 + (d - 48)) acc)
      = acc * 10 ^ L.length + Nat.ofDigits 10 L := by
  induction L with
  | nil => intro acc; simp [Nat.ofDigits]
  | cons d T ih =>
    intro acc
    simp only [List.reverse_cons, List.map_append, List.foldl_append, List.map_cons,
      List.map_nil, List.foldl_cons, List.foldl_nil, List.length_cons]
    rw [ih acc]
    rw [Nat.ofDigits_cons]
    ring_nf
    omega

theorem parseDigits_decDigits (m : Nat) : parseDigits (decDigits m) = some m := by
  rw [decDigits_eq]
  unfold parseDigits
  by_cases hm : m = 0
  · subst hm
    norm_num
  · rw [if_neg hm]
    have hne : Nat.digits 10 m ≠ [] := Nat.digits_ne_nil_iff_ne_zero.mpr hm
    have hdig : ∀ d ∈ Nat.digits 10 m, d < 10 := fun d hd =>
      Nat.digits_lt_base (by norm_num) hd
    rw [if_pos]
    · rw [foldl_digits_reverse (Nat.digits 10 m) 0]
      simp [Nat.ofDigits_digits]
    · constructor
      · simp only [ne_eq, List.map_eq_nil_iff, List.reverse_eq_nil_iff]
        exact hne
      · intro d hd
        simp only [List.mem_map, List.mem_reverse] at hd
        obtain ⟨d', hd', rfl⟩ := hd
        have := hdig d' hd'
        omega

theorem decDigits_ne_nil (m : Nat) : decDigits m ≠ [] := by
  rw [decDigits_eq]
  split
  · simp
  · simp only [ne_eq, List.map_eq_nil_iff, List.reverse_eq_nil_iff]
    exact Nat.digits_ne_nil_iff_ne_zero.mpr (by assumption)

theorem decDigits_head_ne_45 (m d : Nat) (t : List Nat) (hdt : decDigits m = d :: t) :
    d ≠ 45 := by
  have hmem : d ∈ decDigits m := by rw [hdt]; simp
  rw [decDigits_eq] at hmem
  split at hmem
  · simp at hmem
    omega
  · simp only [List.mem_map, List.mem_reverse] at hmem
    obtain ⟨d', hd', hdd⟩ := hmem
    have : d' < 10 := Nat.digits_lt_base (by norm_num) hd'
    omega

theorem longParse_longEnc (n : Int) : longParse (longEnc n) = some n := by
  unfold longEnc
  by_cases hn : n < 0
  · rw [if_pos hn]
    unfold longParse
    simp only [if_true, parseDigits_decDigits, Option.some.injEq]
    omega
  · rw [if_neg hn]
    cases hdec : decDigits n.toNat with
    | nil => exact absurd hdec (decDigits_ne_nil _)
    | cons d t =>
      have hd45 : d ≠ 45 := decDigits_head_ne_45 _ _ _ hdec
      unfold longParse
      simp only
      rw [if_neg hd45, ← hdec]
      simp only [parseDigits_decDigits, Option.some.injEq]
      omega

/-! ## The value domain of the codec

One constructor per codec variant of serialize.py (TAG.INT .. TAG.ERROR).
Machine-level representations are kept explicit: `int` carries a
mathematical integer (the i32 range restriction lives in `wfB`, since
`struct.pack` enforces it only at encode time), `float` carries the eight
bytes of `struct.pack('!d', x)` (the codec never interprets them), `bytes`
and error names are byte lists, `text` is the list of unicode code points.
A dict is represented by its key/value pairs; `wfB` requires them to be
stored in the codec's canonical (sorted, duplicate-free) key order, which
is the canonical representative of the unordered Python dict. -/

inductive SeqKind where
  | list
  | tuple
  | set
deriving DecidableEq

/-- The `SEQ_ID_MAP` of SequenceSerializer. -/
def SeqKind.id : SeqKind → Nat
  | .list => 0
  | .tuple => 1
  | .set => 2

/-- The `SEQ_TYPE_MAP` of SequenceSerializer (built-in entries). -/
def seqKindOfId (n : Nat) : Option SeqKind :=
  match n with
  | 0 => some .list
  | 1 => some .tuple
  | 2 => some .set
  | _ => Option.none

inductive Value where
  | int (n : Int)
  | long (n : Int)
  | float (bits : List Nat)
  | bytes (s : List Nat)
  | text (cs : List Nat)
  | bool (b : Bool)
  | seq (k : SeqKind) (items : List Value)
  | map (pairs : List (Value × Value))
  | none
  | slice (start stop step : Int)
  | ellipsis
  | error (name : List Nat) (args : List Value)

namespace Value

/-- Scalar comparison key, mirroring CPython 2's default cross-type
ordering as far as it is deterministic.  The head is a type rank:
`None` sorts below everything, the unified numeric types
(`bool`/`int`/`long`) share one rank and compare by value (so `True` and
`1` compare equal, as in CPython), byte strings and text compare
lexicographically by their code units.  The remaining variants (floats,
sets, dicts, slices, exception instances) are unhashable or compared by
runtime address in CPython 2, so they cannot occur as dict keys in a
real program; the model gives them a fixed deterministic rank so that the
comparison is total. -/
def scalarKey : Value → List Int
  | .none => [0]
  | .bool b => [1, if b then 1 else 0]
  | .int n => [1, n]
  | .long n => [1, n]
  | .float bits => 2 :: bits.map (fun b => (b : Int))
  | .map _ => [3]
  | .ellipsis => [4]
  | .error name _ => 5 :: name.map (fun b => (b : Int))
  | .seq .list _ => [6]
  | .seq .set _ => [7]
  | .slice a b c => [8, a, b, c]
  | .bytes s => 9 :: s.map (fun b => (b : Int))
  | .seq .tuple _ => [10]
  | .text cs => 11 :: cs.map (fun b => (b : Int))

end Value

/-- Three-way comparison on integers (CPython `cmp` on numbers). -/
def cmpZ (a b : Int) : Ordering :=
  if a < b then .lt else if b < a then .gt else .eq

/-- Lexicographic three-way comparison of integer lists: elementwise, a
strict prefix sorting first (CPython sequence comparison). -/
def lexCmpZ : List Int → List Int → Ordering
  | [], [] => .eq
  | [], _ :: _ => .lt
  | _ :: _, [] => .gt
  | a :: as, b :: bs =>
    match cmpZ a b with
    | .eq => lexCmpZ as bs
    | o => o

mutual

/-- Model of CPython 2 `cmp` on codec values (the order `sorted` uses in
MapSerializer.Serialize): scalar keys lexicographically, then, for the
container variants whose scalar keys can tie, the children
lexicographically.  When the scalar keys differ the `Ordering.then`
discards the child comparison, so child comparison only matters between
two sequences of the same kind, two maps, or two errors of the same
name. -/
def pyCmp : Value → Value → Ordering
  | x, y =>
    (lexCmpZ x.scalarKey y.scalarKey).then
      (match x, y with
       | .seq _ a, .seq _ b => pyCmpList a b
       | .map a, .map b => pyCmpPairs a b
       | .error _ a, .error _ b => pyCmpList a b
       | _, _ => .eq)

/-- CPython 2 `cmp` on value lists (sequence comparison). -/
def pyCmpList : List Value → List Value → Ordering
  | [], [] => .eq
  | [], _ :: _ => .lt
  | _ :: _, [] => .gt
  | a :: as, b :: bs => (pyCmp a b).then (pyCmpList as bs)

/-- Pairwise comparison of stored map pairs (CPython compares the
key/value 2-tuples lexicographically). -/
def pyCmpPairs : List (Value × Value) → List (Value × Value) → Ordering
  | [], [] => .eq
  | [], _ :: _ => .lt
  | _ :: _, [] => .gt
  | (k1, v1) :: t1, (k2, v2) :: t2 =>
    ((pyCmp k1 k2).then (pyCmp v1 v2)).then (pyCmpPairs t1 t2)

end

/-- The order `sorted(obj.items(), key=lambda item: item[0])` sorts by:
compare pairs by their first component under CPython `cmp`.  `sorted` is a
stable sort, and stable sorts agree on every input, so insertion sort
models it exactly. -/
def pairLe (p q : Value × Value) : Prop := pyCmp p.1 q.1 ≠ .gt

instance : DecidableRel pairLe := fun p q => by unfold pairLe; infer_instance

theorem sizeOf_of_perm {α : Type} [SizeOf α] {l₁ l₂ : List α} (h : l₁.Perm l₂) :
    sizeOf l₁ = sizeOf l₂ := by
  induction h with
  | nil => rfl
  | cons x _ ih => simp [ih]
  | swap x y l => simp; omega
  | trans _ _ ih₁ ih₂ => omega

/-! ## Well-formedness

`wfB v` states that `v` denotes a value CPython could actually hold and
that `struct.pack` accepts everywhere the encoder calls it: i32 fields and
lengths in signed 32-bit range, byte values below 256, code points in
CPython 2's range, set elements distinct, and map pairs stored in the
canonical strictly-ascending key order (the canonical representative of
the unordered dict). -/

/-- Strictly ascending (hence duplicate-free) key order of stored map
pairs. -/
def keysStrictSorted : List (Value × Value) → Bool
  | [] => true
  | p :: t => t.all (fun q => pyCmp p.1 q.1 == .lt) && keysStrictSorted t

/-- Pairwise distinctness under CPython comparison (set elements). -/
def pairwiseNeB : List Value → Bool
  | [] => true
  | v :: t => t.all (fun w => !(pyCmp v w == .eq)) && pairwiseNeB t

mutual

def wfB : Value → Bool
  | .int n => decide (-(2^31) ≤ n ∧ n < 2^31)
  | .long n => decide (((longEnc n).length : Int) < 2^31)
  | .float bits => bits.length == 8 && bits.all (fun b => b < 256)
  | .bytes s => decide ((s.length : Int) < 2^31) && s.all (fun b => b < 256)
  | .text cs => decide (((utf8Enc cs).length : Int) < 2^31) && cs.all (fun c => c < 0x110000)
  | .bool _ => true
  | .seq k items =>
      decide ((items.length : Int) < 2^31) &&
      (k != .set || pairwiseNeB items) &&
      wfList items
  | .map pairs =>
      decide ((pairs.length : Int) < 2^31) &&
      keysStrictSorted pairs &&
      wfPairs pairs
  | .none => true
  | .slice a b c =>
      decide (-(2^31) ≤ a ∧ a < 2^31) && decide (-(2^31) ≤ b ∧ b < 2^31) &&
      decide (-(2^31) ≤ c ∧ c < 2^31)
  | .ellipsis => true
  | .error name args =>
      decide ((name.length : Int) < 2^31) && name.all (fun b => b < 256) &&
      decide ((args.length : Int) < 2^31) && wfList args

def wfList : List Value → Bool
  | [] => true
  | v :: t => wfB v && wfList t

def wfPairs : List (Value × Value) → Bool
  | [] => true
  | (k, v) :: t => wfB k && wfB v && wfPairs t

end

/-! ## The encoder (`Serialize` of serialize.py)

Each value is emitted as its tag byte followed by the body produced by the
matching serializer class.  `GetIdealSerializer` resolves each built-in
type to exactly the serializer of its constructor (`bool` wins over `int`
by MRO length), so dispatch by constructor is the source's dispatch. -/

/-- Body written by `BytesSerializer.Serialize`: i32 length, then raw
bytes. -/
def bytesBody (s : List Nat) : Option (List Nat) :=
  (i32Enc s.length).map (fun lb => lb ++ s)

/-- The `PREFERRED_ENCODING` name `'UTF-8'` as bytes. -/
def utf8Name : List Nat := [85, 84, 70, 45, 56]

/-- ASCII bytes of a Lean string (helper for names fixed in the source). -/
def ascii (s : String) : List Nat := s.data.map Char.toNat

/-- Names of the classes in the CPython 2.7 `exceptions` module, which
`ErrorSerializer.Deserialize` consults via `getattr(exceptions, ename,
None)`. -/
def knownErrorNames : List (List Nat) :=
  [ascii "ArithmeticError", ascii "AssertionError", ascii "AttributeError",
   ascii "BaseException", ascii "BufferError", ascii "BytesWarning",
   ascii "DeprecationWarning", ascii "EOFError", ascii "EnvironmentError",
   ascii "Exception", ascii "FloatingPointError", ascii "FutureWarning",
   ascii "GeneratorExit", ascii "IOError", ascii "ImportError",
   ascii "ImportWarning", ascii "IndentationError", ascii "IndexError",
   ascii "KeyError", ascii "KeyboardInterrupt", ascii "LookupError",
   ascii "MemoryError", ascii "NameError", ascii "NotImplementedError",
   ascii "OSError", ascii "OverflowError", ascii "PendingDeprecationWarning",
   ascii "ReferenceError", ascii "RuntimeError", ascii "RuntimeWarning",
   ascii "StandardError", ascii "StopIteration", ascii "SyntaxError",
   ascii "SyntaxWarning", ascii "SystemError", ascii "SystemExit",
   ascii "TabError", ascii "TypeError", ascii "UnboundLocalError",
   ascii "UnicodeDecodeError", ascii "UnicodeEncodeError", ascii "UnicodeError",
   ascii "UnicodeTranslateError", ascii "UnicodeWarning", ascii "UserWarning",
   ascii "ValueError", ascii "Warning", ascii "ZeroDivisionError"]

/-- Name of serialize.py's `RemoteException` fallback class. -/
def remoteExcName : List Nat := ascii "RemoteException"

mutual

def ser (v : Value) : Option (List Nat) :=
  match v with
  | .int n => (i32Enc n).map (fun b => 1 :: b)
  | .long n => (bytesBody (longEnc n)).map (fun b => 2 :: b)
  | .float bits => some (3 :: bits)
  | .bytes s => (bytesBody s).map (fun b => 4 :: b)
  | .text cs => do
      let cb ← bytesBody utf8Name
      let db ← bytesBody (utf8Enc cs)
      pure (5 :: cb ++ db)
  | .bool b => (i32Enc (if b then 1 else 0)).map (fun bb => 6 :: bb)
  | .seq k items => do
      let lb ← i32Enc items.length
      let kb ← u8Enc k.id
      let ib ← serList items
      pure (7 :: lb ++ kb ++ ib)
  | .map pairs => do
      let lb ← i32Enc pairs.length
      let pb ← serPairs (List.insertionSort pairLe pairs)
      pure (8 :: lb ++ pb)
  | .none => some [10]
  | .slice a b c => do
      let ab ← i32Enc a
      let bb ← i32Enc b
      let cb ← i32Enc c
      pure (11 :: ab ++ bb ++ cb)
  | .ellipsis => some [12]
  | .error name args => do
      let nb ← bytesBody name
      let lb ← i32Enc args.length
      let kb ← u8Enc 1
      let ab ← serList args
      pure (13 :: nb ++ lb ++ kb ++ ab)
termination_by sizeOf v
decreasing_by
  all_goals simp
  all_goals try omega
  all_goals have := sizeOf_of_perm (List.perm_insertionSort pairLe pairs)
  all_goals omega

/-- Concatenated full encodings of a value list (sequence items, error
args). -/
def serList : List Value → Option (List Nat)
  | [] => some []
  | v :: t => do
      let vb ← ser v
      let tb ← serList t
      pure (vb ++ tb)
termination_by l => sizeOf l
decreasing_by
  all_goals simp
  all_goals omega

/-- Encodings of map pairs, each written by `SequenceSerializer.Serialize`
on the 2-tuple: i32 2, kind byte 1 (tuple), then the two elements. -/
def serPairs : List (Value × Value) → Option (List Nat)
  | [] => some []
  | (k, v) :: t => do
      let lb ← i32Enc 2
      let kb ← u8Enc 1
      let kvb ← ser k
      let vvb ← ser v
      let tb ← serPairs t
      pure (lb ++ kb ++ kvb ++ vvb ++ tb)
termination_by ps => sizeOf ps
decreasing_by
  all_goals simp
  all_goals omega

end

/-! ## The decoder (`Deserialize` of serialize.py)

One unit of fuel is consumed per decoded value (two per map level, whose
pairs decode through a nested `SequenceSerializer.Deserialize`); the
top-level entry point passes `input length + 1`, which suffices because
every encoding is at least one byte long. -/

/-- Body read by `BytesSerializer.Deserialize`: i32 length `l`, then
`fin.read(l)`.  `cStringIO.read` of a negative count returns the rest of
the stream, and a short stream yields a short read without error. -/
def bytesRead (bs : List Nat) : Option (List Nat × List Nat) := do
  let (l, r) ← i32Dec bs
  let n := if l < 0 then r.length else min l.toNat r.length
  pure (r.take n, r.drop n)

/-- Read exactly `n` bytes or fail (`struct.unpack` on a short read). -/
def readExact (n : Nat) (bs : List Nat) : Option (List Nat × List Nat) :=
  if n ≤ bs.length then some (bs.take n, bs.drop n) else Option.none

/-- One `ret[key] = val` step of `MapSerializer.Deserialize`: CPython dict
assignment replaces the value (keeping the stored key) when an equal key
exists, else appends the new entry. -/
def insertPy : List (Value × Value) → Value → Value → List (Value × Value)
  | [], k, v => [(k, v)]
  | (k', v') :: t, k, v =>
    if pyCmp k' k = .eq then (k', v) :: t else (k', v') :: insertPy t k v

/-- The dict built by the `ret[key] = val` loop. -/
def buildDict (ps : List (Value × Value)) : List (Value × Value) :=
  ps.foldl (fun acc p => insertPy acc p.1 p.2) []

mutual

def deser : Nat → List Nat → Option (Value × List Nat)
  | 0, _ => Option.none
  | fuel + 1, bs => do
    let (tag, r) ← u8Dec bs
    match tag with
    | 1 => (i32Dec r).map (fun p => (Value.int p.1, p.2))
    | 2 => do
        let (s, r1) ← bytesRead r
        let n ← longParse s
        pure (Value.long n, r1)
    | 3 => (readExact 8 r).map (fun p => (Value.float p.1, p.2))
    | 4 => (bytesRead r).map (fun p => (Value.bytes p.1, p.2))
    | 5 => do
        let (cn, r1) ← bytesRead r
        let (d, r2) ← bytesRead r1
        -- a codec name other than the one the encoder writes is a
        -- LookupError, returned as empty text in 'replace' mode (other
        -- spellings CPython would also resolve are not modelled)
        if cn = utf8Name then pure (Value.text (utf8Decode d), r2)
        else pure (Value.text [], r2)
    | 6 => (i32Dec r).map (fun p => (Value.bool (p.1 != 0), p.2))
    | 7 => do
        let (l, r1) ← i32Dec r
        let (kb, r2) ← u8Dec r1
        let k ← seqKindOfId kb
        let (items, r3) ← deserList fuel l.toNat r2
        pure (Value.seq k items, r3)
    | 8 => do
        let (l, r1) ← i32Dec r
        let (ps, r2) ← deserPairs fuel l.toNat r1
        pure (Value.map (buildDict ps), r2)
    | 9 => (u8Dec r).map (fun p => (Value.int (p.1 : Int), p.2))
    | 10 => pure (Value.none, r)
    | 11 => do
        let (a, r1) ← i32Dec r
        let (b, r2) ← i32Dec r1
        let (c, r3) ← i32Dec r2
        pure (Value.slice a b c, r3)
    | 12 => pure (Value.ellipsis, r)
    | 13 => do
        let (name, r1) ← bytesRead r
        let (l, r2) ← i32Dec r1
        let (kb, r3) ← u8Dec r2
        let _ ← seqKindOfId kb
        let (args, r4) ← deserList fuel l.toNat r3
        if name ∈ knownErrorNames then pure (Value.error name args, r4)
        else pure (Value.error remoteExcName (Value.bytes name :: args), r4)
    -- tag 0 is BaseSerializer (NotImplementedError), tags 14+ are
    -- unregistered (KeyError), tag 255 is the service-level
    -- ObjectTranslator, outside this pure codec
    | _ => Option.none
termination_by fuel bs => (fuel, 0, 0)
decreasing_by
  all_goals first
    | exact Prod.Lex.left _ _ (by omega)
    | exact Prod.Lex.right _ (Prod.Lex.left _ _ (by omega))

def deserList : Nat → Nat → List Nat → Option (List Value × List Nat)
  | _, 0, bs => some ([], bs)
  | fuel, n + 1, bs => do
      let (v, r) ← deser fuel bs
      let (vs, r2) ← deserList fuel n r
      pure (v :: vs, r2)
termination_by fuel n bs => (fuel, n, 1)
decreasing_by
  all_goals first
    | exact Prod.Lex.left _ _ (by omega)
    | exact Prod.Lex.right _ (Prod.Lex.left _ _ (by omega))

def deserPairs : Nat → Nat → List Nat → Option (List (Value × Value) × List Nat)
  | _, 0, bs => some ([], bs)
  | 0, _ + 1, _ => Option.none
  | fuel + 1, n + 1, bs => do
      let (l, r1) ← i32Dec bs
      let (kb, r2) ← u8Dec r1
      let _ ← seqKindOfId kb
      let (items, r3) ← deserList fuel l.toNat r2
      -- `key, val = pair` unpacks exactly two elements, else ValueError
      match items with
      | [k, v] => do
          let (t, r4) ← deserPairs (fuel + 1) n r3
          pure ((k, v) :: t, r4)
      | _ => Option.none
termination_by fuel n bs => (fuel, n, 2)
decreasing_by
  all_goals first
    | exact Prod.Lex.left _ _ (by omega)
    | exact Prod.Lex.right _ (Prod.Lex.left _ _ (by omega))

end

/-- Top-level `Serialize(obj)`: tag byte followed by the body. -/
def Serialize (v : Value) : Option (List Nat) := ser v

/-- Top-level `Deserialize(stream)`: reads the tag, dispatches, and ignores
any unconsumed trailing bytes, as the source does. -/
def Deserialize (bs : List Nat) : Option Value :=
  (deser (bs.length + 1) bs).map Prod.fst

/-! ## Round-trip apparatus -/

mutual

/-- True when every error value nested anywhere in `v` carries the name of
a CPython 2 `exceptions` class, so that `ErrorSerializer.Deserialize`
rebuilds it instead of wrapping it in `RemoteException`. -/
def errKnown : Value → Bool
  | .seq _ items => errKnownList items
  | .map pairs => errKnownPairs pairs
  | .error name args => decide (name ∈ knownErrorNames) && errKnownList args
  | _ => true

def errKnownList : List Value → Bool
  | [] => true
  | v :: t => errKnown v && errKnownList t

def errKnownPairs : List (Value × Value) → Bool
  | [] => true
  | (k, v) :: t => errKnown k && errKnown v && errKnownPairs t

end

mutual

/-- Fuel needed by the decoder: one unit per value, and one extra per map
level for the nested pair decode. -/
def vdepth : Value → Nat
  | .seq _ items => 1 + vdepthList items
  | .error _ args => 1 + vdepthList args
  | .map pairs => 2 + vdepthPairs pairs
  | _ => 1

def vdepthList : List Value → Nat
  | [] => 0
  | v :: t => max (vdepth v) (vdepthList t)

def vdepthPairs : List (Value × Value) → Nat
  | [] => 0
  | (k, v) :: t => max (max (vdepth k) (vdepth v)) (vdepthPairs t)

end

theorem seqKindOfId_id (k : SeqKind) : seqKindOfId k.id = some k := by
  cases k <;> rfl

theorem i32Enc_range (n : Int) (bs : List Nat) (h : i32Enc n = some bs) :
    -(2^31) ≤ n ∧ n < 2^31 := by
  unfold i32Enc at h
  split at h
  · assumption
  · exact absurd h (by simp)

theorem bytesBody_inv (s bs : List Nat) (h : bytesBody s = some bs) :
    ∃ lb, i32Enc (s.length : Int) = some lb ∧ bs = lb ++ s := by
  unfold bytesBody at h
  cases henc : i32Enc (s.length : Int) with
  | none => rw [henc] at h; exact absurd h (by simp)
  | some lb =>
    rw [henc] at h
    exact ⟨lb, rfl, (Option.some.inj h).symm⟩

theorem bytesRead_bytesBody (s bs rest : List Nat) (h : bytesBody s = some bs) :
    bytesRead (bs ++ rest) = some (s, rest) := by
  obtain ⟨lb, henc, rfl⟩ := bytesBody_inv s bs h
  have hrange := i32Enc_range _ _ henc
  unfold bytesRead
  rw [List.append_assoc]
  rw [i32Dec_i32Enc _ _ _ (by omega) henc]
  have hneg : ¬ ((s.length : Int) < 0) := by omega
  have hmin : min s.length (s ++ rest).length = s.length := by
    simp [List.length_append]
  simp [hneg, hmin, List.take_left, List.drop_left]

theorem keysStrictSorted_pairwise (ps : List (Value × Value))
    (h : keysStrictSorted ps = true) :
    ps.Pairwise (fun p q => pyCmp p.1 q.1 = .lt) := by
  induction ps with
  | nil => exact List.Pairwise.nil
  | cons p t ih =>
    unfold keysStrictSorted at h
    rw [Bool.and_eq_true] at h
    refine List.Pairwise.cons ?_ (ih h.2)
    intro q hq
    have h1 : (pyCmp p.1 q.1 == Ordering.lt) = true := List.all_eq_true.mp h.1 q hq
    cases ho : pyCmp p.1 q.1
    · rfl
    · rw [ho] at h1; exact absurd h1 (by decide)
    · rw [ho] at h1; exact absurd h1 (by decide)

theorem insertPy_append (acc : List (Value × Value)) (k v : Value)
    (h : ∀ p ∈ acc, pyCmp p.1 k ≠ .eq) :
    insertPy acc k v = acc ++ [(k, v)] := by
  induction acc with
  | nil => rfl
  | cons p t ih =>
    cases p with
    | mk k' v' =>
      unfold insertPy
      rw [if_neg (h (k', v') (by simp))]
      simp only [List.cons_append, List.cons.injEq, true_and]
      exact ih (fun q hq => h q (by simp [hq]))

theorem foldl_insertPy (ps : List (Value × Value)) :
    ∀ acc, ps.Pairwise (fun p q => pyCmp p.1 q.1 = .lt) →
    (∀ p ∈ acc, ∀ q ∈ ps, pyCmp p.1 q.1 ≠ .eq) →
    ps.foldl (fun a p => insertPy a p.1 p.2) acc = acc ++ ps := by
  induction ps with
  | nil => intro acc _ _; simp
  | cons p t ih =>
    intro acc hps hacc
    simp only [List.foldl_cons]
    rw [insertPy_append acc p.1 p.2 (fun q hq => hacc q hq p (by simp))]
    rw [ih (acc ++ [(p.1, p.2)]) (List.Pairwise.sublist (by simp) hps) ?_]
    · simp
    · intro q hq r hr
      rcases List.mem_append.mp hq with hq | hq
      · exact hacc q hq r (by simp [hr])
      · simp only [List.mem_singleton] at hq
        subst hq
        have := (List.pairwise_cons.mp hps).1 r hr
        simp only
        rw [this]
        simp

theorem buildDict_canonical (ps : List (Value × Value))
    (h : keysStrictSorted ps = true) : buildDict ps = ps := by
  have hpw := keysStrictSorted_pairwise ps h
  unfold buildDict
  rw [foldl_insertPy ps [] hpw (by simp)]
  simp

theorem insertionSort_canonical (ps : List (Value × Value))
    (h : keysStrictSorted ps = true) :
    List.insertionSort pairLe ps = ps := by
  apply List.Sorted.insertionSort_eq
  apply List.Pairwise.imp ?_ (keysStrictSorted_pairwise ps h)
  intro p q hpq
  unfold pairLe
  rw [hpq]
  simp

/-- Round-trip property of one value at every sufficient fuel. -/
def RT (v : Value) : Prop :=
  ∀ bs rest fuel, wfB v = true → errKnown v = true → ser v = some bs →
    vdepth v ≤ fuel → deser fuel (bs ++ rest) = some (v, rest)

theorem deserList_rt (l : List Value) (IH : ∀ v ∈ l, RT v) :
    ∀ bs rest fuel, wfList l = true → errKnownList l = true → serList l = some bs →
    vdepthList l ≤ fuel → deserList fuel l.length (bs ++ rest) = some (l, rest) := by
  induction l with
  | nil =>
    intro bs rest fuel _ _ henc _
    unfold serList at henc
    cases henc
    simp [deserList]
  | cons v t ih =>
    intro bs rest fuel hwf herr henc hdep
    unfold serList at henc
    cases hv : ser v with
    | none => rw [hv] at henc; simp at henc
    | some vb =>
      cases ht : serList t with
      | none => rw [hv, ht] at henc; simp at henc
      | some tb =>
        rw [hv, ht] at henc
        simp only [Option.bind_eq_bind, Option.some_bind, Option.pure_def,
          Option.some.injEq] at henc
        subst henc
        unfold wfList at hwf
        rw [Bool.and_eq_true] at hwf
        unfold errKnownList at herr
        rw [Bool.and_eq_true] at herr
        unfold vdepthList at hdep
        show deserList fuel (t.length + 1) ((vb ++ tb) ++ rest) = some (v :: t, rest)
        unfold deserList
        rw [List.append_assoc]
        rw [IH v (by simp) vb (tb ++ rest) fuel hwf.1 herr.1 hv (by omega)]
        simp only [Option.bind_eq_bind, Option.some_bind]
        rw [ih (fun w hw => IH w (by simp [hw])) tb rest fuel hwf.2 herr.2 ht (by omega)]
        rfl

theorem deserPairs_rt (ps : List (Value × Value)) (IH : ∀ p ∈ ps, RT p.1 ∧ RT p.2) :
    ∀ bs rest fuel, wfPairs ps = true → errKnownPairs ps = true → serPairs ps = some bs →
    vdepthPairs ps + 1 ≤ fuel → deserPairs fuel ps.length (bs ++ rest) = some (ps, rest) := by
  induction ps with
  | nil =>
    intro bs rest fuel _ _ henc _
    unfold serPairs at henc
    cases henc
    simp [deserPairs]
  | cons p t ih =>
    intro bs rest fuel hwf herr henc hdep
    cases p with
    | mk k v =>
      unfold serPairs at henc
      cases hlb : i32Enc 2 with
      | none => rw [hlb] at henc; simp at henc
      | some lb =>
      cases hkb : u8Enc 1 with
      | none => rw [hlb, hkb] at henc; simp at henc
      | some kb =>
      cases hk : ser k with
      | none => rw [hlb, hkb, hk] at henc; simp at henc
      | some kvb =>
      cases hv : ser v with
      | none => rw [hlb, hkb, hk, hv] at henc; simp at henc
      | some vvb =>
      cases ht : serPairs t with
      | none => rw [hlb, hkb, hk, hv, ht] at henc; simp at henc
      | some tb =>
      rw [hlb, hkb, hk, hv, ht] at henc
      simp only [Option.bind_eq_bind, Option.some_bind, Option.pure_def,
        Option.some.injEq] at henc
      subst henc
      unfold wfPairs at hwf
      rw [Bool.and_eq_true, Bool.and_eq_true] at hwf
      unfold errKnownPairs at herr
      rw [Bool.and_eq_true, Bool.and_eq_true] at herr
      unfold vdepthPairs at hdep
      obtain ⟨g, rfl⟩ : ∃ g, fuel = g + 1 := ⟨fuel - 1, by omega⟩
      show deserPairs (g + 1) (t.length + 1)
        ((lb ++ kb ++ kvb ++ vvb ++ tb) ++ rest) = some ((k, v) :: t, rest)
      unfold deserPairs
      simp only [List.append_assoc]
      rw [i32Dec_i32Enc 2 lb _ (by norm_num) hlb]
      simp only [Option.bind_eq_bind, Option.some_bind]
      rw [u8Dec_u8Enc 1 kb _ hkb]
      simp only [Option.bind_eq_bind, Option.some_bind]
      show (do
        let x ← seqKindOfId 1
        let (items, r3) ← deserList g (Int.toNat 2) (kvb ++ (vvb ++ (tb ++ rest)))
        match items with
        | [k', v'] => do
            let (t', r4) ← deserPairs (g + 1) t.length r3
            pure ((k', v') :: t', r4)
        | _ => Option.none) = some ((k, v) :: t, rest)
      have h2 : (Int.toNat 2) = 1 + 1 := rfl
      rw [h2]
      simp only [seqKindOfId, Option.bind_eq_bind, Option.some_bind]
      unfold deserList
      rw [(IH (k, v) (by simp)).1 kvb (vvb ++ (tb ++ rest)) g hwf.1.1 herr.1.1 hk
        (by show vdepth k ≤ g; omega)]
      simp only [Option.bind_eq_bind, Option.some_bind]
      unfold deserList
      rw [(IH (k, v) (by simp)).2 vvb (tb ++ rest) g hwf.1.2 herr.1.2 hv
        (by show vdepth v ≤ g; omega)]
      simp only [Option.bind_eq_bind, Option.some_bind]
      have h0 : deserList g 0 (tb ++ rest) = some ([], tb ++ rest) := by simp [deserList]
      rw [h0]
      simp only [Option.bind_eq_bind, Option.some_bind, Option.pure_def]
      rw [ih (fun q hq => IH q (by simp [hq])) tb rest (g + 1) hwf.2 herr.2 ht (by omega)]
      rfl

theorem sizeOf_mem_lt {α : Type} [SizeOf α] {a : α} {l : List α} (h : a ∈ l) :
    sizeOf a < sizeOf l := by
  induction l with
  | nil => cases h
  | cons b t ih =>
    rcases List.mem_cons.mp h with rfl | h
    · simp; omega
    · have := ih h; simp; omega

/-! Equation lemmas exposing the decoder branch selected by each tag
byte. -/

theorem deser_tag1 (f : Nat) (r : List Nat) :
    deser (f + 1) (1 :: r) = (i32Dec r).map (fun p => (Value.int p.1, p.2)) := by
  unfold deser; rfl

theorem deser_tag2 (f : Nat) (r : List Nat) :
    deser (f + 1) (2 :: r) = (do
      let (s, r1) ← bytesRead r
      let n ← longParse s
      pure (Value.long n, r1) : Option (Value × List Nat)) := by
  unfold deser; rfl

theorem deser_tag3 (f : Nat) (r : List Nat) :
    deser (f + 1) (3 :: r) = (readExact 8 r).map (fun p => (Value.float p.1, p.2)) := by
  unfold deser; rfl

theorem deser_tag4 (f : Nat) (r : List Nat) :
    deser (f + 1) (4 :: r) = (bytesRead r).map (fun p => (Value.bytes p.1, p.2)) := by
  unfold deser; rfl

theorem deser_tag5 (f : Nat) (r : List Nat) :
    deser (f + 1) (5 :: r) = (do
      let (cn, r1) ← bytesRead r
      let (d, r2) ← bytesRead r1
      if cn = utf8Name then pure (Value.text (utf8Decode d), r2)
      else pure (Value.text [], r2) : Option (Value × List Nat)) := by
  unfold deser; rfl

theorem deser_tag6 (f : Nat) (r : List Nat) :
    deser (f + 1) (6 :: r) = (i32Dec r).map (fun p => (Value.bool (p.1 != 0), p.2)) := by
  unfold deser; rfl

theorem deser_tag7 (f : Nat) (r : List Nat) :
    deser (f + 1) (7 :: r) = (do
      let (l, r1) ← i32Dec r
      let (kb, r2) ← u8Dec r1
      let k ← seqKindOfId kb
      let (items, r3) ← deserList f l.toNat r2
      pure (Value.seq k items, r3) : Option (Value × List Nat)) := by
  unfold deser; rfl

theorem deser_tag8 (f : Nat) (r : List Nat) :
    deser (f + 1) (8 :: r) = (do
      let (l, r1) ← i32Dec r
      let (ps, r2) ← deserPairs f l.toNat r1
      pure (Value.map (buildDict ps), r2) : Option (Value × List Nat)) := by
  unfold deser; rfl

theorem deser_tag10 (f : Nat) (r : List Nat) :
    deser (f + 1) (10 :: r) = some (Value.none, r) := by
  unfold deser; rfl

theorem deser_tag11 (f : Nat) (r : List Nat) :
    deser (f + 1) (11 :: r) = (do
      let (a, r1) ← i32Dec r
      let (b, r2) ← i32Dec r1
      let (c, r3) ← i32Dec r2
      pure (Value.slice a b c, r3) : Option (Value × List Nat)) := by
  unfold deser; rfl

theorem deser_tag12 (f : Nat) (r : List Nat) :
    deser (f + 1) (12 :: r) = some (Value.ellipsis, r) := by
  unfold deser; rfl

theorem deser_tag13 (f : Nat) (r : List Nat) :
    deser (f + 1) (13 :: r) = (do
      let (name, r1) ← bytesRead r
      let (l, r2) ← i32Dec r1
      let (kb, r3) ← u8Dec r2
      let _ ← seqKindOfId kb
      let (args, r4) ← deserList f l.toNat r3
      if name ∈ knownErrorNames then pure (Value.error name args, r4)
      else pure (Value.error remoteExcName (Value.bytes name :: args), r4)
      : Option (Value × List Nat)) := by
  unfold deser; rfl

theorem rt_all (v : Value) : RT v := by
  have main : ∀ n v, sizeOf v ≤ n → RT v := by
    intro n
    induction n using Nat.strong_induction_on with
    | _ n ihn =>
      intro v hvn
      have IHmem : ∀ w : Value, sizeOf w < sizeOf v → RT w := fun w hw =>
        ihn (sizeOf w) (by omega) w le_rfl
      intro bs rest fuel hwf herr henc hdep
      cases v with
      | int m =>
        unfold ser at henc
        cases hb : i32Enc m with
        | none => rw [hb] at henc; simp at henc
        | some ib =>
          rw [hb] at henc
          obtain rfl : (1 :: ib : List Nat) = bs := Option.some.inj henc
          obtain ⟨f, rfl⟩ : ∃ f, fuel = f + 1 := ⟨fuel - 1, by
            have h1 : vdepth (Value.int m) = 1 := rfl
            omega⟩
          simp only [List.cons_append]
          rw [deser_tag1]
          rw [i32Dec_i32Enc m ib rest (i32Enc_range m ib hb) hb]
          rfl
      | long m =>
        unfold ser at henc
        cases hb : bytesBody (longEnc m) with
        | none => rw [hb] at henc; simp at henc
        | some bb =>
          rw [hb] at henc
          obtain rfl : (2 :: bb : List Nat) = bs := Option.some.inj henc
          obtain ⟨f, rfl⟩ : ∃ f, fuel = f + 1 := ⟨fuel - 1, by
            have h1 : vdepth (Value.long m) = 1 := rfl
            omega⟩
          simp only [List.cons_append]
          rw [deser_tag2]
          rw [bytesRead_bytesBody _ _ _ hb]
          simp only [Option.bind_eq_bind, Option.some_bind]
          rw [longParse_longEnc m]
          rfl
      | float bits =>
        unfold ser at henc
        obtain rfl : (3 :: bits : List Nat) = bs := Option.some.inj henc
        obtain ⟨f, rfl⟩ : ∃ f, fuel = f + 1 := ⟨fuel - 1, by
          have h1 : vdepth (Value.float bits) = 1 := rfl
          omega⟩
        have hlen : bits.length = 8 := by
          simp only [wfB] at hwf
          rw [Bool.and_eq_true] at hwf
          exact eq_of_beq hwf.1
        simp only [List.cons_append]
        rw [deser_tag3]
        unfold readExact
        rw [if_pos (by simp [hlen])]
        rw [← hlen, List.take_left, List.drop_left]
        rfl
      | bytes s =>
        unfold ser at henc
        cases hb : bytesBody s with
        | none => rw [hb] at henc; simp at henc
        | some bb =>
          rw [hb] at henc
          obtain rfl : (4 :: bb : List Nat) = bs := Option.some.inj henc
          obtain ⟨f, rfl⟩ : ∃ f, fuel = f + 1 := ⟨fuel - 1, by
            have h1 : vdepth (Value.bytes s) = 1 := rfl
            omega⟩
          simp only [List.cons_append]
          rw [deser_tag4]
          rw [bytesRead_bytesBody _ _ _ hb]
          rfl
      | text cs =>
        unfold ser at henc
        cases hc : bytesBody utf8Name with
        | none => rw [hc] at henc; simp at henc
        | some cb =>
        cases hd : bytesBody (utf8Enc cs) with
        | none => rw [hc, hd] at henc; simp at henc
        | some db =>
        rw [hc, hd] at henc
        simp only [Option.bind_eq_bind, Option.some_bind, Option.pure_def,
          Option.some.injEq] at henc
        subst henc
        obtain ⟨f, rfl⟩ : ∃ f, fuel = f + 1 := ⟨fuel - 1, by
          have h1 : vdepth (Value.text cs) = 1 := rfl
          omega⟩
        simp only [List.cons_append]
        rw [deser_tag5]
        rw [List.append_assoc]
        rw [bytesRead_bytesBody _ _ _ hc]
        simp only [Option.bind_eq_bind, Option.some_bind]
        rw [bytesRead_bytesBody _ _ _ hd]
        simp only [Option.bind_eq_bind, Option.some_bind, if_pos rfl]
        have hcps : ∀ c ∈ cs, c < 0x110000 := by
          simp only [wfB] at hwf
          rw [Bool.and_eq_true] at hwf
          intro c hcmem
          have := List.all_eq_true.mp hwf.2 c hcmem
          simpa using this
        rw [utf8Decode_utf8Enc cs hcps]
        rfl
      | bool b =>
        unfold ser at henc
        cases hb : i32Enc (if b then 1 else 0) with
        | none => rw [hb] at henc; simp at henc
        | some ib =>
          rw [hb] at henc
          obtain rfl : (6 :: ib : List Nat) = bs := Option.some.inj henc
          obtain ⟨f, rfl⟩ : ∃ f, fuel = f + 1 := ⟨fuel - 1, by
            have h1 : vdepth (Value.bool b) = 1 := rfl
            omega⟩
          simp only [List.cons_append]
          rw [deser_tag6]
          rw [i32Dec_i32Enc _ ib rest (by cases b <;> norm_num) hb]
          cases b <;> rfl
      | seq k items =>
        unfold ser at henc
        cases hlb : i32Enc (items.length : Int) with
        | none => rw [hlb] at henc; simp at henc
        | some lb =>
        cases hkb : u8Enc k.id with
        | none => rw [hlb, hkb] at henc; simp at henc
        | some kb =>
        cases hib : serList items with
        | none => rw [hlb, hkb, hib] at henc; simp at henc
        | some ib =>
        rw [hlb, hkb, hib] at henc
        simp only [Option.bind_eq_bind, Option.some_bind, Option.pure_def,
          Option.some.injEq] at henc
        subst henc
        have hdepth : vdepth (Value.seq k items) = 1 + vdepthList items := rfl
        obtain ⟨f, rfl⟩ : ∃ f, fuel = f + 1 := ⟨fuel - 1, by omega⟩
        simp only [wfB] at hwf
        rw [Bool.and_eq_true, Bool.and_eq_true] at hwf
        simp only [errKnown] at herr
        simp only [List.cons_append]
        rw [deser_tag7]
        simp only [List.append_assoc]
        rw [i32Dec_i32Enc _ lb _ (i32Enc_range _ lb hlb) hlb]
        simp only [Option.bind_eq_bind, Option.some_bind]
        rw [u8Dec_u8Enc _ kb _ hkb]
        simp only [Option.bind_eq_bind, Option.some_bind]
        rw [seqKindOfId_id k]
        simp only [Option.bind_eq_bind, Option.some_bind, Int.toNat_natCast]
        rw [deserList_rt items
          (fun w hw => IHmem w (by
            have := sizeOf_mem_lt hw
            simp
            omega))
          ib rest f hwf.2 herr hib (by omega)]
        rfl
      | map pairs =>
        unfold ser at henc
        cases hlb : i32Enc (pairs.length : Int) with
        | none => rw [hlb] at henc; simp at henc
        | some lb =>
        simp only [wfB] at hwf
        rw [Bool.and_eq_true, Bool.and_eq_true] at hwf
        rw [insertionSort_canonical pairs hwf.1.2] at henc
        cases hpb : serPairs pairs with
        | none => rw [hlb, hpb] at henc; simp at henc
        | some pb =>
        rw [hlb, hpb] at henc
        simp only [Option.bind_eq_bind, Option.some_bind, Option.pure_def,
          Option.some.injEq] at henc
        subst henc
        have hdepth : vdepth (Value.map pairs) = 2 + vdepthPairs pairs := rfl
        obtain ⟨f, rfl⟩ : ∃ f, fuel = f + 1 := ⟨fuel - 1, by omega⟩
        simp only [errKnown] at herr
        simp only [List.cons_append]
        rw [deser_tag8]
        simp only [List.append_assoc]
        rw [i32Dec_i32Enc _ lb _ (i32Enc_range _ lb hlb) hlb]
        simp only [Option.bind_eq_bind, Option.some_bind, Int.toNat_natCast]
        rw [deserPairs_rt pairs
          (fun p hp => by
            have hlt := sizeOf_mem_lt hp
            have hp1 : sizeOf p.1 < sizeOf p := by
              cases p; simp only [Prod.mk.sizeOf_spec]; omega
            have hp2 : sizeOf p.2 < sizeOf p := by
              cases p; simp only [Prod.mk.sizeOf_spec]; omega
            have hsz : sizeOf pairs < sizeOf (Value.map pairs) := by
              simp only [Value.map.sizeOf_spec]; omega
            exact ⟨IHmem p.1 (by omega), IHmem p.2 (by omega)⟩)
          pb rest f hwf.2 herr hpb (by omega)]
        simp only [Option.bind_eq_bind, Option.some_bind]
        rw [buildDict_canonical pairs hwf.1.2]
        rfl
      | none =>
        unfold ser at henc
        obtain rfl : ([10] : List Nat) = bs := Option.some.inj henc
        obtain ⟨f, rfl⟩ : ∃ f, fuel = f + 1 := ⟨fuel - 1, by
          have h1 : vdepth Value.none = 1 := rfl
          omega⟩
        simp only [List.cons_append, List.nil_append]
        rw [deser_tag10]
      | slice a b c =>
        unfold ser at henc
        cases ha : i32Enc a with
        | none => rw [ha] at henc; simp at henc
        | some ab =>
        cases hbb : i32Enc b with
        | none => rw [ha, hbb] at henc; simp at henc
        | some bb =>
        cases hcc : i32Enc c with
        | none => rw [ha, hbb, hcc] at henc; simp at henc
        | some cb =>
        rw [ha, hbb, hcc] at henc
        simp only [Option.bind_eq_bind, Option.some_bind, Option.pure_def,
          Option.some.injEq] at henc
        subst henc
        obtain ⟨f, rfl⟩ : ∃ f, fuel = f + 1 := ⟨fuel - 1, by
          have h1 : vdepth (Value.slice a b c) = 1 := rfl
          omega⟩
        simp only [List.cons_append]
        rw [deser_tag11]
        simp only [List.append_assoc]
        rw [i32Dec_i32Enc _ ab _ (i32Enc_range _ ab ha) ha]
        simp only [Option.bind_eq_bind, Option.some_bind]
        rw [i32Dec_i32Enc _ bb _ (i32Enc_range _ bb hbb) hbb]
        simp only [Option.bind_eq_bind, Option.some_bind]
        rw [i32Dec_i32Enc _ cb _ (i32Enc_range _ cb hcc) hcc]
        rfl
      | ellipsis =>
        unfold ser at henc
        obtain rfl : ([12] : List Nat) = bs := Option.some.inj henc
        obtain ⟨f, rfl⟩ : ∃ f, fuel = f + 1 := ⟨fuel - 1, by
          have h1 : vdepth Value.ellipsis = 1 := rfl
          omega⟩
        simp only [List.cons_append, List.nil_append]
        rw [deser_tag12]
      | error name args =>
        unfold ser at henc
        cases hnb : bytesBody name with
        | none => rw [hnb] at henc; simp at henc
        | some nb =>
        cases hlb : i32Enc (args.length : Int) with
        | none => rw [hnb, hlb] at henc; simp at henc
        | some lb =>
        cases hkb : u8Enc 1 with
        | none => rw [hnb, hlb, hkb] at henc; simp at henc
        | some kb =>
        cases hab : serList args with
        | none => rw [hnb, hlb, hkb, hab] at henc; simp at henc
        | some ab =>
        rw [hnb, hlb, hkb, hab] at henc
        simp only [Option.bind_eq_bind, Option.some_bind, Option.pure_def,
          Option.some.injEq] at henc
        subst henc
        have hdepth : vdepth (Value.error name args) = 1 + vdepthList args := rfl
        obtain ⟨f, rfl⟩ : ∃ f, fuel = f + 1 := ⟨fuel - 1, by omega⟩
        simp only [wfB] at hwf
        rw [Bool.and_eq_true, Bool.and_eq_true, Bool.and_eq_true] at hwf
        simp only [errKnown] at herr
        rw [Bool.and_eq_true] at herr
        simp only [List.cons_append]
        rw [deser_tag13]
        simp only [List.append_assoc]
        rw [bytesRead_bytesBody _ _ _ hnb]
        simp only [Option.bind_eq_bind, Option.some_bind]
        rw [i32Dec_i32Enc _ lb _ (i32Enc_range _ lb hlb) hlb]
        simp only [Option.bind_eq_bind, Option.some_bind]
        rw [u8Dec_u8Enc _ kb _ hkb]
        simp only [Option.bind_eq_bind, Option.some_bind]
        rw [show seqKindOfId 1 = some SeqKind.tuple from rfl]
        simp only [Option.bind_eq_bind, Option.some_bind, Int.toNat_natCast]
        rw [deserList_rt args
          (fun w hw => IHmem w (by
            have := sizeOf_mem_lt hw
            simp
            omega))
          ab rest f hwf.2 herr.2 hab (by omega)]
        simp only [Option.bind_eq_bind, Option.some_bind]
        rw [if_pos (of_decide_eq_true herr.1)]
        rfl
  exact main (sizeOf v) v le_rfl

theorem i32Enc_length (n : Int) (b : List Nat) (h : i32Enc n = some b) :
    b.length = 4 := by
  unfold i32Enc at h
  split at h
  · cases h; rfl
  · exact absurd h (by simp)

theorem vdepthPairs_perm {l₁ l₂ : List (Value × Value)} (h : l₁.Perm l₂) :
    vdepthPairs l₁ = vdepthPairs l₂ := by
  induction h with
  | nil => rfl
  | cons x _ ih => cases x; simp [vdepthPairs, ih]
  | swap x y l => cases x; cases y; simp [vdepthPairs]; omega
  | trans _ _ ih₁ ih₂ => omega

theorem serList_depth (l : List Value)
    (IH : ∀ v ∈ l, ∀ bs, ser v = some bs → vdepth v ≤ bs.length) :
    ∀ bs, serList l = some bs → vdepthList l ≤ bs.length := by
  induction l with
  | nil =>
    intro bs h
    unfold serList at h
    cases h
    simp [vdepthList]
  | cons v t ih =>
    intro bs h
    unfold serList at h
    cases hv : ser v with
    | none => rw [hv] at h; simp at h
    | some vb =>
    cases ht : serList t with
    | none => rw [hv, ht] at h; simp at h
    | some tb =>
    rw [hv, ht] at h
    simp only [Option.bind_eq_bind, Option.some_bind, Option.pure_def,
      Option.some.injEq] at h
    subst h
    have h1 := IH v (by simp) vb hv
    have h2 := ih (fun w hw bs2 => IH w (by simp [hw]) bs2) tb ht
    simp only [vdepthList, List.length_append]
    omega

theorem serPairs_depth (ps : List (Value × Value))
    (IH : ∀ p ∈ ps, (∀ bs, ser p.1 = some bs → vdepth p.1 ≤ bs.length) ∧
      (∀ bs, ser p.2 = some bs → vdepth p.2 ≤ bs.length)) :
    ∀ bs, serPairs ps = some bs → vdepthPairs ps ≤ bs.length := by
  induction ps with
  | nil =>
    intro bs h
    unfold serPairs at h
    cases h
    simp [vdepthPairs]
  | cons p t ih =>
    intro bs h
    cases p with
    | mk k v =>
    unfold serPairs at h
    cases hlb : i32Enc 2 with
    | none => rw [hlb] at h; simp at h
    | some lb =>
    cases hkb : u8Enc 1 with
    | none => rw [hlb, hkb] at h; simp at h
    | some kb =>
    cases hk : ser k with
    | none => rw [hlb, hkb, hk] at h; simp at h
    | some kvb =>
    cases hv : ser v with
    | none => rw [hlb, hkb, hk, hv] at h; simp at h
    | some vvb =>
    cases ht : serPairs t with
    | none => rw [hlb, hkb, hk, hv, ht] at h; simp at h
    | some tb =>
    rw [hlb, hkb, hk, hv, ht] at h
    simp only [Option.bind_eq_bind, Option.some_bind, Option.pure_def,
      Option.some.injEq] at h
    subst h
    have h1 : vdepth k ≤ kvb.length := (IH (k, v) (by simp)).1 kvb hk
    have h2 : vdepth v ≤ vvb.length := (IH (k, v) (by simp)).2 vvb hv
    have h3 := ih (fun q hq => IH q (by simp [hq])) tb ht
    simp only [vdepthPairs, List.length_append]
    omega

theorem ser_depth (v : Value) : ∀ bs, ser v = some bs → vdepth v ≤ bs.length := by
  have main : ∀ n v, sizeOf v ≤ n → ∀ bs, ser v = some bs → vdepth v ≤ bs.length := by
    intro n
    induction n using Nat.strong_induction_on with
    | _ n ihn =>
      intro v hvn
      have IHmem : ∀ w : Value, sizeOf w < sizeOf v →
          ∀ bs, ser w = some bs → vdepth w ≤ bs.length := fun w hw =>
        ihn (sizeOf w) (by omega) w le_rfl
      intro bs henc
      cases v with
      | seq k items =>
        unfold ser at henc
        cases hlb : i32Enc (items.length : Int) with
        | none => rw [hlb] at henc; simp at henc
        | some lb =>
        cases hkb : u8Enc k.id with
        | none => rw [hlb, hkb] at henc; simp at henc
        | some kb =>
        cases hib : serList items with
        | none => rw [hlb, hkb, hib] at henc; simp at henc
        | some ib =>
        rw [hlb, hkb, hib] at henc
        simp only [Option.bind_eq_bind, Option.some_bind, Option.pure_def,
          Option.some.injEq] at henc
        subst henc
        have h1 := serList_depth items
          (fun w hw => IHmem w (by
            have := sizeOf_mem_lt hw
            simp only [Value.seq.sizeOf_spec]
            omega)) ib hib
        have hv : vdepth (Value.seq k items) = 1 + vdepthList items := rfl
        simp only [hv, List.length_cons, List.length_append]
        omega
      | map pairs =>
        unfold ser at henc
        cases hlb : i32Enc (pairs.length : Int) with
        | none => rw [hlb] at henc; simp at henc
        | some lb =>
        cases hpb : serPairs (List.insertionSort pairLe pairs) with
        | none => rw [hlb, hpb] at henc; simp at henc
        | some pb =>
        rw [hlb, hpb] at henc
        simp only [Option.bind_eq_bind, Option.some_bind, Option.pure_def,
          Option.some.injEq] at henc
        subst henc
        have hperm := List.perm_insertionSort pairLe pairs
        have h1 := serPairs_depth (List.insertionSort pairLe pairs)
          (fun p hp => by
            have hmem : p ∈ pairs := hperm.mem_iff.mp hp
            have hlt := sizeOf_mem_lt hmem
            have hp1 : sizeOf p.1 < sizeOf p := by
              cases p; simp only [Prod.mk.sizeOf_spec]; omega
            have hp2 : sizeOf p.2 < sizeOf p := by
              cases p; simp only [Prod.mk.sizeOf_spec]; omega
            have hsz : sizeOf pairs < sizeOf (Value.map pairs) := by
              simp only [Value.map.sizeOf_spec]; omega
            exact ⟨IHmem p.1 (by omega), IHmem p.2 (by omega)⟩) pb hpb
        have h2 := vdepthPairs_perm hperm
        have hv : vdepth (Value.map pairs) = 2 + vdepthPairs pairs := rfl
        have h4 := i32Enc_length _ _ hlb
        simp only [hv, List.length_cons, List.length_append]
        omega
      | error name args =>
        unfold ser at henc
        cases hnb : bytesBody name with
        | none => rw [hnb] at henc; simp at henc
        | some nb =>
        cases hlb : i32Enc (args.length : Int) with
        | none => rw [hnb, hlb] at henc; simp at henc
        | some lb =>
        cases hkb : u8Enc 1 with
        | none => rw [hnb, hlb, hkb] at henc; simp at henc
        | some kb =>
        cases hab : serList args with
        | none => rw [hnb, hlb, hkb, hab] at henc; simp at henc
        | some ab =>
        rw [hnb, hlb, hkb, hab] at henc
        simp only [Option.bind_eq_bind, Option.some_bind, Option.pure_def,
          Option.some.injEq] at henc
        subst henc
        have h1 := serList_depth args
          (fun w hw => IHmem w (by
            have := sizeOf_mem_lt hw
            simp only [Value.error.sizeOf_spec]
            omega)) ab hab
        have hv : vdepth (Value.error name args) = 1 + vdepthList args := rfl
        simp only [hv, List.length_cons, List.length_append]
        omega
      | int m =>
        unfold ser at henc
        cases hb : i32Enc m with
        | none => rw [hb] at henc; simp at henc
        | some ib =>
          rw [hb] at henc
          obtain rfl : (1 :: ib : List Nat) = bs := Option.some.inj henc
          show (1 : Nat) ≤ _
          simp
      | long m =>
        unfold ser at henc
        cases hb : bytesBody (longEnc m) with
        | none => rw [hb] at henc; simp at henc
        | some bb =>
          rw [hb] at henc
          obtain rfl : (2 :: bb : List Nat) = bs := Option.some.inj henc
          show (1 : Nat) ≤ _
          simp
      | float bits =>
        unfold ser at henc
        obtain rfl : (3 :: bits : List Nat) = bs := Option.some.inj henc
        show (1 : Nat) ≤ _
        simp
      | bytes s =>
        unfold ser at henc
        cases hb : bytesBody s with
        | none => rw [hb] at henc; simp at henc
        | some bb =>
          rw [hb] at henc
          obtain rfl : (4 :: bb : List Nat) = bs := Option.some.inj henc
          show (1 : Nat) ≤ _
          simp
      | text cs =>
        unfold ser at henc
        cases hc : bytesBody utf8Name with
        | none => rw [hc] at henc; simp at henc
        | some cb =>
        cases hd : bytesBody (utf8Enc cs) with
        | none => rw [hc, hd] at henc; simp at henc
        | some db =>
        rw [hc, hd] at henc
        simp only [Option.bind_eq_bind, Option.some_bind, Option.pure_def,
          Option.some.injEq] at henc
        subst henc
        show (1 : Nat) ≤ _
        simp
      | bool b =>
        unfold ser at henc
        cases hb : i32Enc (if b then 1 else 0) with
        | none => rw [hb] at henc; simp at henc
        | some ib =>
          rw [hb] at henc
          obtain rfl : (6 :: ib : List Nat) = bs := Option.some.inj henc
          show (1 : Nat) ≤ _
          simp
      | none =>
        unfold ser at henc
        obtain rfl : ([10] : List Nat) = bs := Option.some.inj henc
        show (1 : Nat) ≤ _
        simp
      | slice a b c =>
        unfold ser at henc
        cases ha : i32Enc a with
        | none => rw [ha] at henc; simp at henc
        | some ab =>
        cases hbb : i32Enc b with
        | none => rw [ha, hbb] at henc; simp at henc
        | some bb =>
        cases hcc : i32Enc c with
        | none => rw [ha, hbb, hcc] at henc; simp at henc
        | some cb =>
        rw [ha, hbb, hcc] at henc
        simp only [Option.bind_eq_bind, Option.some_bind, Option.pure_def,
          Option.some.injEq] at henc
        subst henc
        show (1 : Nat) ≤ _
        simp
      | ellipsis =>
        unfold ser at henc
        obtain rfl : ([12] : List Nat) = bs := Option.some.inj henc
        show (1 : Nat) ≤ _
        simp
  exact main (sizeOf v) v le_rfl

/-! ## Encoder totality on well-formed values -/

theorem i32Enc_total (n : Int) (h : -(2^31) ≤ n ∧ n < 2^31) :
    ∃ b, i32Enc n = some b := by
  unfold i32Enc
  rw [if_pos h]
  exact ⟨_, rfl⟩

theorem u8Enc_total (n : Nat) (h : n < 256) : ∃ b, u8Enc n = some b := by
  unfold u8Enc
  rw [if_pos h]
  exact ⟨_, rfl⟩

theorem bytesBody_total (s : List Nat) (h : ((s.length : Nat) : Int) < 2^31) :
    ∃ b, bytesBody s = some b := by
  obtain ⟨lb, hlb⟩ := i32Enc_total (s.length : Int) ⟨by omega, h⟩
  unfold bytesBody
  rw [hlb]
  exact ⟨_, rfl⟩

theorem wfList_mem (l : List Value) :
    wfList l = true ↔ ∀ v ∈ l, wfB v = true := by
  induction l with
  | nil => simp [wfList]
  | cons a t ih =>
    unfold wfList
    rw [Bool.and_eq_true, ih]
    constructor
    · rintro ⟨h1, h2⟩ w hw
      rcases List.mem_cons.mp hw with rfl | hw
      · exact h1
      · exact h2 w hw
    · intro h
      exact ⟨h a (by simp), fun w hw => h w (by simp [hw])⟩

theorem wfPairs_mem (ps : List (Value × Value)) :
    wfPairs ps = true ↔ ∀ p ∈ ps, wfB p.1 = true ∧ wfB p.2 = true := by
  induction ps with
  | nil => simp [wfPairs]
  | cons p t ih =>
    cases p with
    | mk k v =>
      unfold wfPairs
      rw [Bool.and_eq_true, Bool.and_eq_true, ih]
      constructor
      · rintro ⟨⟨h1, h2⟩, h3⟩ q hq
        rcases List.mem_cons.mp hq with rfl | hq
        · exact ⟨h1, h2⟩
        · exact h3 q hq
      · intro h
        exact ⟨⟨(h (k, v) (by simp)).1, (h (k, v) (by simp)).2⟩,
          fun q hq => h q (by simp [hq])⟩

theorem serList_total (l : List Value) (IH : ∀ v ∈ l, ∃ bs, ser v = some bs) :
    ∃ bs, serList l = some bs := by
  induction l with
  | nil => exact ⟨[], by unfold serList; rfl⟩
  | cons v t ih =>
    obtain ⟨vb, hv⟩ := IH v (by simp)
    obtain ⟨tb, ht⟩ := ih (fun w hw => IH w (by simp [hw]))
    refine ⟨vb ++ tb, ?_⟩
    unfold serList
    rw [hv, ht]
    rfl

theorem serPairs_total (ps : List (Value × Value))
    (IH : ∀ p ∈ ps, (∃ b1, ser p.1 = some b1) ∧ (∃ b2, ser p.2 = some b2)) :
    ∃ bs, serPairs ps = some bs := by
  induction ps with
  | nil => exact ⟨[], by unfold serPairs; rfl⟩
  | cons p t ih =>
    cases p with
    | mk k v =>
      obtain ⟨kb, hk⟩ := (IH (k, v) (by simp)).1
      obtain ⟨vb, hv⟩ := (IH (k, v) (by simp)).2
      obtain ⟨tb, ht⟩ := ih (fun q hq => IH q (by simp [hq]))
      refine ⟨[0, 0, 0, 2] ++ [1] ++ kb ++ vb ++ tb, ?_⟩
      unfold serPairs
      rw [hk, hv, ht]
      rfl

theorem ser_total (v : Value) (hwf : wfB v = true) : ∃ bs, ser v = some bs := by
  have main : ∀ n v, sizeOf v ≤ n → wfB v = true → ∃ bs, ser v = some bs := by
    intro n
    induction n using Nat.strong_induction_on with
    | _ n ihn =>
      intro v hvn hwf
      have IHmem : ∀ w : Value, sizeOf w < sizeOf v → wfB w = true →
          ∃ bs, ser w = some bs := fun w hw =>
        ihn (sizeOf w) (by omega) w le_rfl
      cases v with
      | int m =>
        simp only [wfB] at hwf
        obtain ⟨b, hb⟩ := i32Enc_total m (of_decide_eq_true hwf)
        refine ⟨1 :: b, ?_⟩
        unfold ser
        rw [hb]
        rfl
      | long m =>
        simp only [wfB] at hwf
        obtain ⟨b, hb⟩ := bytesBody_total (longEnc m) (of_decide_eq_true hwf)
        refine ⟨2 :: b, ?_⟩
        unfold ser
        rw [hb]
        rfl
      | float bits =>
        exact ⟨3 :: bits, by unfold ser; rfl⟩
      | bytes s =>
        simp only [wfB] at hwf
        rw [Bool.and_eq_true] at hwf
        obtain ⟨b, hb⟩ := bytesBody_total s (of_decide_eq_true hwf.1)
        refine ⟨4 :: b, ?_⟩
        unfold ser
        rw [hb]
        rfl
      | text cs =>
        simp only [wfB] at hwf
        rw [Bool.and_eq_true] at hwf
        obtain ⟨cb, hc⟩ := bytesBody_total utf8Name (by norm_num [utf8Name])
        obtain ⟨db, hd⟩ := bytesBody_total (utf8Enc cs) (of_decide_eq_true hwf.1)
        refine ⟨5 :: cb ++ db, ?_⟩
        unfold ser
        rw [hc, hd]
        rfl
      | bool b =>
        obtain ⟨ib, hb⟩ := i32Enc_total (if b then 1 else 0) (by cases b <;> norm_num)
        refine ⟨6 :: ib, ?_⟩
        unfold ser
        rw [hb]
        rfl
      | seq k items =>
        simp only [wfB] at hwf
        rw [Bool.and_eq_true, Bool.and_eq_true] at hwf
        obtain ⟨lb, hlb⟩ := i32Enc_total (items.length : Int)
          ⟨by omega, of_decide_eq_true hwf.1.1⟩
        obtain ⟨kb, hkb⟩ := u8Enc_total k.id (by cases k <;> decide)
        have hwl : ∀ w ∈ items, wfB w = true := (wfList_mem items).mp hwf.2
        obtain ⟨ib, hib⟩ := serList_total items (fun w hw =>
          IHmem w (by
            have := sizeOf_mem_lt hw
            simp only [Value.seq.sizeOf_spec]
            omega) (hwl w hw))
        refine ⟨7 :: lb ++ kb ++ ib, ?_⟩
        unfold ser
        rw [hlb, hkb, hib]
        rfl
      | map pairs =>
        simp only [wfB] at hwf
        rw [Bool.and_eq_true, Bool.and_eq_true] at hwf
        obtain ⟨lb, hlb⟩ := i32Enc_total (pairs.length : Int)
          ⟨by omega, of_decide_eq_true hwf.1.1⟩
        have hperm := List.perm_insertionSort pairLe pairs
        have hmemwf := (wfPairs_mem pairs).mp hwf.2
        obtain ⟨pb, hpb⟩ := serPairs_total (List.insertionSort pairLe pairs)
          (fun p hp => by
            have hmem : p ∈ pairs := hperm.mem_iff.mp hp
            have hlt := sizeOf_mem_lt hmem
            have hp1 : sizeOf p.1 < sizeOf p := by
              cases p; simp only [Prod.mk.sizeOf_spec]; omega
            have hp2 : sizeOf p.2 < sizeOf p := by
              cases p; simp only [Prod.mk.sizeOf_spec]; omega
            have hsz : sizeOf pairs < sizeOf (Value.map pairs) := by
              simp only [Value.map.sizeOf_spec]; omega
            exact ⟨IHmem p.1 (by omega) (hmemwf p hmem).1,
              IHmem p.2 (by omega) (hmemwf p hmem).2⟩)
        refine ⟨8 :: lb ++ pb, ?_⟩
        unfold ser
        rw [hlb, hpb]
        rfl
      | none => exact ⟨[10], by unfold ser; rfl⟩
      | slice a b c =>
        simp only [wfB] at hwf
        rw [Bool.and_eq_true, Bool.and_eq_true] at hwf
        obtain ⟨ab, ha⟩ := i32Enc_total a (of_decide_eq_true hwf.1.1)
        obtain ⟨bb, hb⟩ := i32Enc_total b (of_decide_eq_true hwf.1.2)
        obtain ⟨cb, hc⟩ := i32Enc_total c (of_decide_eq_true hwf.2)
        refine ⟨11 :: ab ++ bb ++ cb, ?_⟩
        unfold ser
        rw [ha, hb, hc]
        rfl
      | ellipsis => exact ⟨[12], by unfold ser; rfl⟩
      | error name args =>
        simp only [wfB] at hwf
        rw [Bool.and_eq_true, Bool.and_eq_true, Bool.and_eq_true] at hwf
        obtain ⟨nb, hnb⟩ := bytesBody_total name (of_decide_eq_true hwf.1.1.1)
        obtain ⟨lb, hlb⟩ := i32Enc_total (args.length : Int)
          ⟨by omega, of_decide_eq_true hwf.1.2⟩
        obtain ⟨kb, hkb⟩ := u8Enc_total 1 (by decide)
        have hwl : ∀ w ∈ args, wfB w = true := (wfList_mem args).mp hwf.2
        obtain ⟨ab, hab⟩ := serList_total args (fun w hw =>
          IHmem w (by
            have := sizeOf_mem_lt hw
            simp only [Value.error.sizeOf_spec]
            omega) (hwl w hw))
        refine ⟨13 :: nb ++ lb ++ kb ++ ab, ?_⟩
        unfold ser
        rw [hnb, hlb, hkb, hab]
        rfl
  exact main (sizeOf v) v le_rfl hwf

/-! ## Claim C1 — codec round-trip -/

/-- C1 (amended): for every well-formed value of a supported codec variant
(i32 integer, arbitrary-precision integer, float, byte string, text
string, boolean, list/tuple/set sequence, map in canonical representation,
None, slice, Ellipsis, error) in which every nested error value carries
the name of a CPython 2 `exceptions` class, `Serialize` succeeds and
`Deserialize` of the produced bytes is structurally equal to the value,
preserving the container kind for sequences.  The restriction on error
names is forced by `C1_counterexample`: `ErrorSerializer.Deserialize`
rebuilds an unrecognized name as `RemoteException(name, *args)`, which is
not structurally equal to the original. -/
theorem C1_codec_roundtrip (v : Value) (hwf : wfB v = true)
    (herr : errKnown v = true) :
    ∃ bs, Serialize v = some bs ∧ Deserialize bs = some v := by
  obtain ⟨bs, hbs⟩ := ser_total v hwf
  refine ⟨bs, hbs, ?_⟩
  unfold Deserialize
  have hd := ser_depth v bs hbs
  have h := rt_all v bs [] (bs.length + 1) hwf herr hbs (by omega)
  rw [List.append_nil] at h
  rw [h]
  rfl

/-- C1 counterexample: the claim as stated — round-trip for every value of
the error variant — fails on an exception whose type name is not a CPython
`exceptions` class.  `FooErr('')`-style values come back as
`RemoteException('FooErr')`, a structurally different value. -/
theorem C1_counterexample :
    wfB (Value.error (ascii "FooErr") []) = true ∧
    Serialize (Value.error (ascii "FooErr") []) =
      some [13, 0, 0, 0, 6, 70, 111, 111, 69, 114, 114, 0, 0, 0, 0, 1] ∧
    Deserialize [13, 0, 0, 0, 6, 70, 111, 111, 69, 114, 114, 0, 0, 0, 0, 1] =
      some (Value.error remoteExcName [Value.bytes (ascii "FooErr")]) ∧
    Value.error remoteExcName [Value.bytes (ascii "FooErr")] ≠
      Value.error (ascii "FooErr") [] := by
  refine ⟨by decide, ?_, ?_, by simp [remoteExcName, ascii]⟩
  · simp [Serialize, ser, serList, bytesBody, i32Enc, u8Enc, ascii]
  · simp [Deserialize, deser, deserList, u8Dec, i32Dec, bytesRead, seqKindOfId,
      knownErrorNames, remoteExcName, ascii]

/-- A nested sample value exercising map, sequence, text, long, error and
scalar variants, used to witness `C1_codec_roundtrip`. -/
def c1Sample : Value :=
  Value.map
    [(Value.bytes (ascii "a"),
        Value.seq .list [Value.int 3, Value.none, Value.long (-17)]),
     (Value.bytes (ascii "b"),
        Value.seq .tuple [Value.text [233, 65], Value.bool true,
          Value.error (ascii "ValueError") [Value.bytes (ascii "x")]])]

theorem C1_codec_roundtrip_witness :
    wfB c1Sample = true ∧ errKnown c1Sample = true ∧
    ∃ bs, Serialize c1Sample = some bs ∧ Deserialize bs = some c1Sample :=
  ⟨by decide, by decide, C1_codec_roundtrip c1Sample (by decide) (by decide)⟩

/-! ## Order theory for the map sort (claim C2)

`sorted` compares keys with CPython `cmp`, modelled by `pyCmp`.  The
following establishes that `pyCmp` is an oriented, transitive comparison,
which makes the sort's output canonical for dicts with pairwise distinct
keys. -/

theorem then_eq_iff (o p : Ordering) : o.then p = .eq ↔ o = .eq ∧ p = .eq := by
  cases o <;> simp [Ordering.then]

theorem then_of_ne_eq (o p : Ordering) (h : o ≠ .eq) : o.then p = o := by
  cases o with
  | lt => rfl
  | eq => exact absurd rfl h
  | gt => rfl

theorem then_swap (o p : Ordering) : (o.then p).swap = o.swap.then p.swap := by
  cases o <;> rfl

theorem cmpZ_swap (a b : Int) : (cmpZ a b).swap = cmpZ b a := by
  unfold cmpZ
  rcases lt_trichotomy a b with h | h | h
  · rw [if_pos h, if_neg (by omega), if_pos h]
    rfl
  · rw [if_neg (by omega), if_neg (by omega), if_neg (by omega), if_neg (by omega)]
    rfl
  · rw [if_neg (by omega), if_pos h, if_pos h]
    rfl

theorem cmpZ_eq_iff (a b : Int) : cmpZ a b = .eq ↔ a = b := by
  unfold cmpZ
  rcases lt_trichotomy a b with h | h | h
  · rw [if_pos h]; constructor <;> intro hc <;> [cases hc; omega]
  · rw [if_neg (by omega), if_neg (by omega)]; simp [h]
  · rw [if_neg (by omega), if_pos h]; constructor <;> intro hc <;> [cases hc; omega]

theorem cmpZ_lt_iff (a b : Int) : cmpZ a b = .lt ↔ a < b := by
  unfold cmpZ
  rcases lt_trichotomy a b with h | h | h
  · rw [if_pos h]; simp [h]
  · rw [if_neg (by omega), if_neg (by omega)]
    constructor <;> intro hc <;> [cases hc; omega]
  · rw [if_neg (by omega), if_pos h]
    constructor <;> intro hc <;> [cases hc; omega]

theorem lexCmpZ_swap (a b : List Int) : (lexCmpZ a b).swap = lexCmpZ b a := by
  induction a generalizing b with
  | nil => cases b <;> rfl
  | cons x xs ih =>
    cases b with
    | nil => rfl
    | cons y ys =>
      unfold lexCmpZ
      rcases ho : cmpZ x y with _ | _ | _
      · have h' : cmpZ y x = .gt := by rw [← cmpZ_swap x y, ho]; rfl
        simp only [h']
        rfl
      · have h' : cmpZ y x = .eq := by rw [← cmpZ_swap x y, ho]; rfl
        simp only [h']
        exact ih ys
      · have h' : cmpZ y x = .lt := by rw [← cmpZ_swap x y, ho]; rfl
        simp only [h']
        rfl

theorem lexCmpZ_eq_iff (a b : List Int) : lexCmpZ a b = .eq ↔ a = b := by
  induction a generalizing b with
  | nil => cases b <;> simp [lexCmpZ]
  | cons x xs ih =>
    cases b with
    | nil => simp [lexCmpZ]
    | cons y ys =>
      unfold lexCmpZ
      rcases ho : cmpZ x y with _ | _ | _
      · simp only []
        constructor
        · intro h; cases h
        · rintro ⟨rfl, rfl⟩
          rw [(cmpZ_eq_iff x x).mpr rfl] at ho
          cases ho
      · have hxy := (cmpZ_eq_iff x y).mp ho
        subst hxy
        simp only [ih ys, List.cons.injEq, true_and]
      · simp only []
        constructor
        · intro h; cases h
        · rintro ⟨rfl, rfl⟩
          rw [(cmpZ_eq_iff x x).mpr rfl] at ho
          cases ho

/-- Lexicographic extension of a comparison to lists (the common shape of
`pyCmpList` and `pyCmpPairs`). -/
def lexList {α : Type} (c : α → α → Ordering) : List α → List α → Ordering
  | [], [] => .eq
  | [], _ :: _ => .lt
  | _ :: _, [] => .gt
  | a :: as, b :: bs => (c a b).then (lexList c as bs)

theorem lexList_swap_of {α : Type} (c : α → α → Ordering) (l m : List α)
    (H : ∀ a ∈ l, ∀ b ∈ m, (c a b).swap = c b a) :
    (lexList c l m).swap = lexList c m l := by
  induction l generalizing m with
  | nil => cases m <;> rfl
  | cons a as ih =>
    cases m with
    | nil => rfl
    | cons b bs =>
      show ((c a b).then (lexList c as bs)).swap = (c b a).then (lexList c bs as)
      rw [then_swap, H a (by simp) b (by simp),
        ih bs (fun a' ha' b' hb' => H a' (by simp [ha']) b' (by simp [hb']))]

theorem lexList_congr_of {α : Type} (c : α → α → Ordering) (lx ly lz : List α)
    (H : ∀ a ∈ lx, ∀ b ∈ ly, ∀ d ∈ lz, c a b = .eq → c a d = c b d) :
    lexList c lx ly = .eq → lexList c lx lz = lexList c ly lz := by
  induction lx generalizing ly lz with
  | nil =>
    intro h
    cases ly with
    | nil => rfl
    | cons b bs => exact Ordering.noConfusion h
  | cons a as ih =>
    intro h
    cases ly with
    | nil => exact Ordering.noConfusion h
    | cons b bs =>
      have h' : c a b = .eq ∧ lexList c as bs = .eq := (then_eq_iff _ _).mp h
      cases lz with
      | nil => rfl
      | cons d ds =>
        show (c a d).then (lexList c as ds) = (c b d).then (lexList c bs ds)
        rw [H a (by simp) b (by simp) d (by simp) h'.1,
          ih bs ds (fun a' ha' b' hb' d' hd' =>
            H a' (by simp [ha']) b' (by simp [hb']) d' (by simp [hd'])) h'.2]

theorem lexList_lt_trans_of {α : Type} (c : α → α → Ordering) (lx ly lz : List α)
    (H : ∀ a ∈ lx, ∀ b ∈ ly, ∀ d ∈ lz,
      (c a b = .eq → c a d = c b d) ∧
      (c b d = .eq → c b a = c d a) ∧
      (c a b = .lt → c b d = .lt → c a d = .lt))
    (Hswap : ∀ a ∈ lx, ∀ b ∈ ly, (c a b).swap = c b a)
    (Hswap2 : ∀ a ∈ lx, ∀ d ∈ lz, (c a d).swap = c d a)
    (h1 : lexList c lx ly = .lt) (h2 : lexList c ly lz = .lt) :
    lexList c lx lz = .lt := by
  induction lx generalizing ly lz with
  | nil =>
    cases ly with
    | nil => exact Ordering.noConfusion h1
    | cons b bs =>
      cases lz with
      | nil => exact Ordering.noConfusion h2
      | cons d ds => rfl
  | cons a as ih =>
    cases ly with
    | nil => exact Ordering.noConfusion h1
    | cons b bs =>
      cases lz with
      | nil => exact Ordering.noConfusion h2
      | cons d ds =>
        have hH := H a (by simp) b (by simp) d (by simp)
        have hsw1 := Hswap a (by simp) b (by simp)
        have hsw2 := Hswap2 a (by simp) d (by simp)
        have h1' : (c a b).then (lexList c as bs) = .lt := h1
        have h2' : (c b d).then (lexList c bs ds) = .lt := h2
        show (c a d).then (lexList c as ds) = .lt
        rcases hab : c a b with _ | _ | _ <;> rw [hab] at h1'
        · rcases hbd : c b d with _ | _ | _ <;> rw [hbd] at h2'
          · rw [hH.2.2 hab hbd]
            rfl
          · -- c b d = eq gives c b a = c d a, so c a d = c a b = lt
            have hba := hH.2.1 hbd
            have heq : c a b = c a d := by
              have h3 : (c a b).swap = (c a d).swap := by rw [hsw1, hsw2]; exact hba
              exact Ordering.swap_inj.mp h3
            rw [← heq, hab]
            rfl
          · exact Ordering.noConfusion h2'
        · -- c a b = eq
          rcases hbd : c b d with _ | _ | _ <;> rw [hbd] at h2'
          · rw [hH.1 hab, hbd]
            rfl
          · rw [hH.1 hab, hbd]
            exact ih bs ds
              (fun a' ha' b' hb' d' hd' =>
                H a' (by simp [ha']) b' (by simp [hb']) d' (by simp [hd']))
              (fun a' ha' b' hb' => Hswap a' (by simp [ha']) b' (by simp [hb']))
              (fun a' ha' d' hd' => Hswap2 a' (by simp [ha']) d' (by simp [hd']))
              h1' h2'
          · exact Ordering.noConfusion h2'
        · exact Ordering.noConfusion h1'

/-- The child comparison selected by `pyCmp` after the scalar keys tie,
as a standalone function for reasoning. -/
def kidsCmp (x y : Value) : Ordering :=
  match x, y with
  | .seq _ a, .seq _ b => pyCmpList a b
  | .map a, .map b => pyCmpPairs a b
  | .error _ a, .error _ b => pyCmpList a b
  | _, _ => .eq

theorem pyCmp_eq' (x y : Value) :
    pyCmp x y = (lexCmpZ x.scalarKey y.scalarKey).then (kidsCmp x y) := by
  cases x <;> cases y <;> rfl

/-- Comparison of two stored pairs, keys first (CPython tuple `cmp`). -/
def pairCmp (p q : Value × Value) : Ordering :=
  (pyCmp p.1 q.1).then (pyCmp p.2 q.2)

theorem pyCmpList_eq_lexList (l m : List Value) :
    pyCmpList l m = lexList pyCmp l m := by
  induction l generalizing m with
  | nil => cases m <;> rfl
  | cons a as ih =>
    cases m with
    | nil => rfl
    | cons b bs =>
      show (pyCmp a b).then (pyCmpList as bs) = (pyCmp a b).then (lexList pyCmp as bs)
      rw [ih bs]

theorem pyCmpPairs_eq_lexList (l m : List (Value × Value)) :
    pyCmpPairs l m = lexList pairCmp l m := by
  induction l generalizing m with
  | nil => cases m <;> rfl
  | cons p t ih =>
    cases p with
    | mk k v =>
      cases m with
      | nil => rfl
      | cons q t' =>
        cases q with
        | mk k' v' =>
          show ((pyCmp k k').then (pyCmp v v')).then (pyCmpPairs t t')
            = (pairCmp (k, v) (k', v')).then (lexList pairCmp t t')
          rw [ih t']
          rfl

theorem pyCmp_swap (x y : Value) : (pyCmp x y).swap = pyCmp y x := by
  have main : ∀ n x y, sizeOf x + sizeOf y ≤ n → (pyCmp x y).swap = pyCmp y x := by
    intro n
    induction n using Nat.strong_induction_on with
    | _ n ihn =>
      intro x y hn
      have IH : ∀ a b : Value, sizeOf a + sizeOf b < sizeOf x + sizeOf y →
          (pyCmp a b).swap = pyCmp b a := fun a b h => ihn _ (by omega) a b le_rfl
      rw [pyCmp_eq' x y, pyCmp_eq' y x, then_swap, lexCmpZ_swap]
      have hk : (kidsCmp x y).swap = kidsCmp y x := by
        cases x <;> cases y <;> try rfl
        case seq.seq =>
          show (pyCmpList _ _).swap = pyCmpList _ _
          rw [pyCmpList_eq_lexList, pyCmpList_eq_lexList]
          apply lexList_swap_of
          intro a' ha' b' hb'
          apply IH
          have h1 := sizeOf_mem_lt ha'
          have h2 := sizeOf_mem_lt hb'
          simp only [Value.seq.sizeOf_spec]
          omega
        case map.map =>
          show (pyCmpPairs _ _).swap = pyCmpPairs _ _
          rw [pyCmpPairs_eq_lexList, pyCmpPairs_eq_lexList]
          apply lexList_swap_of
          intro p hp q hq
          have hp1 := sizeOf_mem_lt hp
          have hq1 := sizeOf_mem_lt hq
          have hps : sizeOf p.1 < sizeOf p ∧ sizeOf p.2 < sizeOf p := by
            cases p; simp only [Prod.mk.sizeOf_spec]; omega
          have hqs : sizeOf q.1 < sizeOf q ∧ sizeOf q.2 < sizeOf q := by
            cases q; simp only [Prod.mk.sizeOf_spec]; omega
          show ((pyCmp p.1 q.1).then (pyCmp p.2 q.2)).swap
            = (pyCmp q.1 p.1).then (pyCmp q.2 p.2)
          rw [then_swap, IH p.1 q.1 (by simp only [Value.map.sizeOf_spec]; omega),
            IH p.2 q.2 (by simp only [Value.map.sizeOf_spec]; omega)]
        case error.error =>
          show (pyCmpList _ _).swap = pyCmpList _ _
          rw [pyCmpList_eq_lexList, pyCmpList_eq_lexList]
          apply lexList_swap_of
          intro a' ha' b' hb'
          apply IH
          have h1 := sizeOf_mem_lt ha'
          have h2 := sizeOf_mem_lt hb'
          simp only [Value.error.sizeOf_spec]
          omega
      rw [hk]
  exact main (sizeOf x + sizeOf y) x y le_rfl

theorem lexCmpZ_lt_trans (a b c : List Int)
    (h1 : lexCmpZ a b = .lt) (h2 : lexCmpZ b c = .lt) : lexCmpZ a c = .lt := by
  induction a generalizing b c with
  | nil =>
    cases b with
    | nil => cases h1
    | cons y ys =>
      cases c with
      | nil => cases h2
      | cons z zs => rfl
  | cons x xs ih =>
    cases b with
    | nil => cases h1
    | cons y ys =>
      cases c with
      | nil => cases h2
      | cons z zs =>
        unfold lexCmpZ at h1 h2 ⊢
        rcases hxy : cmpZ x y with _ | _ | _ <;> rw [hxy] at h1 <;>
          rcases hyz : cmpZ y z with _ | _ | _ <;> rw [hyz] at h2
        · rw [(cmpZ_lt_iff x z).mpr (by
            have := (cmpZ_lt_iff x y).mp hxy
            have := (cmpZ_lt_iff y z).mp hyz
            omega)]
        · have := (cmpZ_eq_iff y z).mp hyz
          subst this
          rw [hxy]
        · cases h2
        · have := (cmpZ_eq_iff x y).mp hxy
          subst this
          rw [hyz]
        · have := (cmpZ_eq_iff x y).mp hxy
          subst this
          rw [hyz]
          exact ih ys zs h1 h2
        · cases h2
        · cases h1
        · cases h1
        · cases h1


/-- Shape category of a value: which branch of the child-comparison match
it selects (1: sequences, 2: maps, 3: errors, 0: everything else). -/
def vcat : Value → Nat
  | .seq _ _ => 1
  | .map _ => 2
  | .error _ _ => 3
  | _ => 0

/-- Category read off the head of the scalar key. -/
def catOfHead : Int → Nat
  | 6 => 1
  | 7 => 1
  | 10 => 1
  | 3 => 2
  | 5 => 3
  | _ => 0

theorem vcat_eq (v : Value) : vcat v = catOfHead (Value.scalarKey v).headI := by
  cases v <;> first
    | rfl
    | (rename_i k l; cases k <;> rfl)

theorem pairCmp_congr (p q r : Value × Value)
    (h1 : pyCmp p.1 q.1 = .eq → pyCmp p.1 r.1 = pyCmp q.1 r.1)
    (h2 : pyCmp p.2 q.2 = .eq → pyCmp p.2 r.2 = pyCmp q.2 r.2) :
    pairCmp p q = .eq → pairCmp p r = pairCmp q r := by
  intro h
  obtain ⟨ha, hb⟩ := (then_eq_iff _ _).mp h
  unfold pairCmp
  rw [h1 ha, h2 hb]

theorem pairCmp_lt_trans (p q r : Value × Value)
    (hc1 : pyCmp p.1 q.1 = .eq → pyCmp p.1 r.1 = pyCmp q.1 r.1)
    (hc2 : pyCmp q.1 r.1 = .eq → pyCmp q.1 p.1 = pyCmp r.1 p.1)
    (ht1 : pyCmp p.1 q.1 = .lt → pyCmp q.1 r.1 = .lt → pyCmp p.1 r.1 = .lt)
    (hc3 : pyCmp p.2 q.2 = .eq → pyCmp p.2 r.2 = pyCmp q.2 r.2)
    (ht2 : pyCmp p.2 q.2 = .lt → pyCmp q.2 r.2 = .lt → pyCmp p.2 r.2 = .lt) :
    pairCmp p q = .lt → pairCmp q r = .lt → pairCmp p r = .lt := by
  intro h1 h2
  unfold pairCmp at h1 h2 ⊢
  rcases hab : pyCmp p.1 q.1 with _ | _ | _ <;> rw [hab] at h1
  · rcases hbd : pyCmp q.1 r.1 with _ | _ | _ <;> rw [hbd] at h2
    · rw [ht1 hab hbd]
      rfl
    · have hba := hc2 hbd
      have heq : pyCmp p.1 q.1 = pyCmp p.1 r.1 := by
        have h3 : (pyCmp p.1 q.1).swap = (pyCmp p.1 r.1).swap := by
          rw [pyCmp_swap, pyCmp_swap]
          exact hba
        exact Ordering.swap_inj.mp h3
      rw [← heq, hab]
      rfl
    · exact Ordering.noConfusion h2
  · have h1' : pyCmp p.2 q.2 = .lt := h1
    rcases hbd : pyCmp q.1 r.1 with _ | _ | _ <;> rw [hbd] at h2
    · rw [hc1 hab, hbd]
      rfl
    · have h2' : pyCmp q.2 r.2 = .lt := h2
      rw [hc1 hab, hbd]
      show pyCmp p.2 r.2 = .lt
      exact ht2 h1' h2'
    · exact Ordering.noConfusion h2
  · exact Ordering.noConfusion h1

theorem pyCmp_trans_master (x y z : Value) :
    (pyCmp x y = .eq → pyCmp x z = pyCmp y z) ∧
    (pyCmp x y = .lt → pyCmp y z = .lt → pyCmp x z = .lt) := by
  have main : ∀ n x y z, sizeOf x + sizeOf y + sizeOf z ≤ n →
      (pyCmp x y = .eq → pyCmp x z = pyCmp y z) ∧
      (pyCmp x y = .lt → pyCmp y z = .lt → pyCmp x z = .lt) := by
    intro n
    induction n using Nat.strong_induction_on with
    | _ n ihn =>
      intro x y z hn
      have IHc : ∀ a b d : Value,
          sizeOf a + sizeOf b + sizeOf d < sizeOf x + sizeOf y + sizeOf z →
          (pyCmp a b = .eq → pyCmp a d = pyCmp b d) := fun a b d h =>
        (ihn _ (by omega) a b d le_rfl).1
      have IHt : ∀ a b d : Value,
          sizeOf a + sizeOf b + sizeOf d < sizeOf x + sizeOf y + sizeOf z →
          (pyCmp a b = .lt → pyCmp b d = .lt → pyCmp a d = .lt) := fun a b d h =>
        (ihn _ (by omega) a b d le_rfl).2
      constructor
      · intro h
        rw [pyCmp_eq' x y] at h
        obtain ⟨hsk, hkids⟩ := (then_eq_iff _ _).mp h
        have hskeq : Value.scalarKey x = Value.scalarKey y := (lexCmpZ_eq_iff _ _).mp hsk
        have hcat : vcat x = vcat y := by rw [vcat_eq, vcat_eq, hskeq]
        rw [pyCmp_eq' x z, pyCmp_eq' y z, hskeq]
        have hk : kidsCmp x z = kidsCmp y z := by
          cases x <;> cases y
          all_goals try (cases z <;> rfl)
          all_goals try (simp [vcat] at hcat)
          case seq.seq =>
            cases z
            all_goals try rfl
            case seq =>
              have hkids' : pyCmpList _ _ = .eq := hkids
              show pyCmpList _ _ = pyCmpList _ _
              rw [pyCmpList_eq_lexList, pyCmpList_eq_lexList]
              rw [pyCmpList_eq_lexList] at hkids'
              refine lexList_congr_of _ _ _ _ ?_ hkids'
              intro a ha b hb d hd
              apply IHc
              have s1 := sizeOf_mem_lt ha
              have s2 := sizeOf_mem_lt hb
              have s3 := sizeOf_mem_lt hd
              simp only [Value.seq.sizeOf_spec]
              omega
          case error.error =>
            cases z
            all_goals try rfl
            case error =>
              have hkids' : pyCmpList _ _ = .eq := hkids
              show pyCmpList _ _ = pyCmpList _ _
              rw [pyCmpList_eq_lexList, pyCmpList_eq_lexList]
              rw [pyCmpList_eq_lexList] at hkids'
              refine lexList_congr_of _ _ _ _ ?_ hkids'
              intro a ha b hb d hd
              apply IHc
              have s1 := sizeOf_mem_lt ha
              have s2 := sizeOf_mem_lt hb
              have s3 := sizeOf_mem_lt hd
              simp only [Value.error.sizeOf_spec]
              omega
          case map.map =>
            cases z
            all_goals try rfl
            case map =>
              have hkids' : pyCmpPairs _ _ = .eq := hkids
              show pyCmpPairs _ _ = pyCmpPairs _ _
              rw [pyCmpPairs_eq_lexList, pyCmpPairs_eq_lexList]
              rw [pyCmpPairs_eq_lexList] at hkids'
              refine lexList_congr_of _ _ _ _ ?_ hkids'
              intro p hp q hq r hr
              have s1 := sizeOf_mem_lt hp
              have s2 := sizeOf_mem_lt hq
              have s3 := sizeOf_mem_lt hr
              have hps : sizeOf p.1 < sizeOf p ∧ sizeOf p.2 < sizeOf p := by
                cases p; simp only [Prod.mk.sizeOf_spec]; omega
              have hqs : sizeOf q.1 < sizeOf q ∧ sizeOf q.2 < sizeOf q := by
                cases q; simp only [Prod.mk.sizeOf_spec]; omega
              have hrs : sizeOf r.1 < sizeOf r ∧ sizeOf r.2 < sizeOf r := by
                cases r; simp only [Prod.mk.sizeOf_spec]; omega
              exact pairCmp_congr p q r
                (IHc p.1 q.1 r.1 (by simp only [Value.map.sizeOf_spec]; omega))
                (IHc p.2 q.2 r.2 (by simp only [Value.map.sizeOf_spec]; omega))
        rw [hk]
      · intro h1 h2
        rw [pyCmp_eq' x y] at h1
        rw [pyCmp_eq' y z] at h2
        rw [pyCmp_eq' x z]
        rcases ho1 : lexCmpZ x.scalarKey y.scalarKey with _ | _ | _ <;> rw [ho1] at h1
        · rcases ho2 : lexCmpZ y.scalarKey z.scalarKey with _ | _ | _ <;> rw [ho2] at h2
          · rw [lexCmpZ_lt_trans _ _ _ ho1 ho2]
            rfl
          · have he : y.scalarKey = z.scalarKey := (lexCmpZ_eq_iff _ _).mp ho2
            rw [← he, ho1]
            rfl
          · exact Ordering.noConfusion h2
        · have he : x.scalarKey = y.scalarKey := (lexCmpZ_eq_iff _ _).mp ho1
          have h1' : kidsCmp x y = .lt := h1
          rcases ho2 : lexCmpZ y.scalarKey z.scalarKey with _ | _ | _ <;> rw [ho2] at h2
          · rw [he, ho2]
            rfl
          · have h2' : kidsCmp y z = .lt := h2
            have he2 : y.scalarKey = z.scalarKey := (lexCmpZ_eq_iff _ _).mp ho2
            rw [he, he2, (lexCmpZ_eq_iff _ _).mpr rfl]
            show kidsCmp x z = .lt
            cases x <;> cases y
            all_goals try (exact Ordering.noConfusion h1')
            case seq.seq =>
              cases z
              all_goals try (exact Ordering.noConfusion h2')
              case seq =>
                have h1'' : pyCmpList _ _ = .lt := h1'
                have h2'' : pyCmpList _ _ = .lt := h2'
                show pyCmpList _ _ = .lt
                rw [pyCmpList_eq_lexList] at h1'' h2'' ⊢
                refine lexList_lt_trans_of _ _ _ _ ?_ ?_ ?_ h1'' h2''
                · intro a ha b hb d hd
                  have s1 := sizeOf_mem_lt ha
                  have s2 := sizeOf_mem_lt hb
                  have s3 := sizeOf_mem_lt hd
                  refine ⟨IHc a b d ?_, ?_, IHt a b d ?_⟩
                  · simp only [Value.seq.sizeOf_spec]; omega
                  · intro hbd
                    exact IHc b d a (by simp only [Value.seq.sizeOf_spec]; omega) hbd
                  · simp only [Value.seq.sizeOf_spec]; omega
                · intro a _ b _
                  exact pyCmp_swap a b
                · intro a _ d _
                  exact pyCmp_swap a d
            case error.error =>
              cases z
              all_goals try (exact Ordering.noConfusion h2')
              case error =>
                have h1'' : pyCmpList _ _ = .lt := h1'
                have h2'' : pyCmpList _ _ = .lt := h2'
                show pyCmpList _ _ = .lt
                rw [pyCmpList_eq_lexList] at h1'' h2'' ⊢
                refine lexList_lt_trans_of _ _ _ _ ?_ ?_ ?_ h1'' h2''
                · intro a ha b hb d hd
                  have s1 := sizeOf_mem_lt ha
                  have s2 := sizeOf_mem_lt hb
                  have s3 := sizeOf_mem_lt hd
                  refine ⟨IHc a b d ?_, ?_, IHt a b d ?_⟩
                  · simp only [Value.error.sizeOf_spec]; omega
                  · intro hbd
                    exact IHc b d a (by simp only [Value.error.sizeOf_spec]; omega) hbd
                  · simp only [Value.error.sizeOf_spec]; omega
                · intro a _ b _
                  exact pyCmp_swap a b
                · intro a _ d _
                  exact pyCmp_swap a d
            case map.map =>
              cases z
              all_goals try (exact Ordering.noConfusion h2')
              case map =>
                have h1'' : pyCmpPairs _ _ = .lt := h1'
                have h2'' : pyCmpPairs _ _ = .lt := h2'
                show pyCmpPairs _ _ = .lt
                rw [pyCmpPairs_eq_lexList] at h1'' h2'' ⊢
                refine lexList_lt_trans_of _ _ _ _ ?_ ?_ ?_ h1'' h2''
                · intro p hp q hq r hr
                  have s1 := sizeOf_mem_lt hp
                  have s2 := sizeOf_mem_lt hq
                  have s3 := sizeOf_mem_lt hr
                  have hps : sizeOf p.1 < sizeOf p ∧ sizeOf p.2 < sizeOf p := by
                    cases p; simp only [Prod.mk.sizeOf_spec]; omega
                  have hqs : sizeOf q.1 < sizeOf q ∧ sizeOf q.2 < sizeOf q := by
                    cases q; simp only [Prod.mk.sizeOf_spec]; omega
                  have hrs : sizeOf r.1 < sizeOf r ∧ sizeOf r.2 < sizeOf r := by
                    cases r; simp only [Prod.mk.sizeOf_spec]; omega
                  refine ⟨?_, ?_, ?_⟩
                  · exact pairCmp_congr p q r
                      (IHc p.1 q.1 r.1 (by simp only [Value.map.sizeOf_spec]; omega))
                      (IHc p.2 q.2 r.2 (by simp only [Value.map.sizeOf_spec]; omega))
                  · exact pairCmp_congr q r p
                      (IHc q.1 r.1 p.1 (by simp only [Value.map.sizeOf_spec]; omega))
                      (IHc q.2 r.2 p.2 (by simp only [Value.map.sizeOf_spec]; omega))
                  · exact pairCmp_lt_trans p q r
                      (IHc p.1 q.1 r.1 (by simp only [Value.map.sizeOf_spec]; omega))
                      (IHc q.1 r.1 p.1 (by simp only [Value.map.sizeOf_spec]; omega))
                      (IHt p.1 q.1 r.1 (by simp only [Value.map.sizeOf_spec]; omega))
                      (IHc p.2 q.2 r.2 (by simp only [Value.map.sizeOf_spec]; omega))
                      (IHt p.2 q.2 r.2 (by simp only [Value.map.sizeOf_spec]; omega))
                · intro p _ q _
                  show (pairCmp p q).swap = pairCmp q p
                  unfold pairCmp
                  rw [then_swap, pyCmp_swap, pyCmp_swap]
                · intro p _ r _
                  show (pairCmp p r).swap = pairCmp r p
                  unfold pairCmp
                  rw [then_swap, pyCmp_swap, pyCmp_swap]
          · exact Ordering.noConfusion h2
        · exact Ordering.noConfusion h1
  exact main (sizeOf x + sizeOf y + sizeOf z) x y z le_rfl

theorem pyCmp_gt_iff (x y : Value) : pyCmp x y = .gt ↔ pyCmp y x = .lt := by
  constructor
  · intro h
    rw [← pyCmp_swap x y, h]
    rfl
  · intro h
    have hs := pyCmp_swap y x
    rw [h] at hs
    rw [← hs]
    rfl

theorem pyCmp_eq_symm (x y : Value) : pyCmp x y = .eq ↔ pyCmp y x = .eq := by
  constructor <;> intro h <;>
    [rw [← pyCmp_swap x y, h]; rw [← pyCmp_swap y x, h]] <;> rfl

/-- `sorted` ordering totality: for any two keys, one side's `cmp` is not
`gt`. -/
instance pairLe_total : IsTotal (Value × Value) pairLe :=
  ⟨fun p q => by
    unfold pairLe
    cases h : pyCmp p.1 q.1 with
    | lt => exact Or.inl (by simp [h])
    | eq => exact Or.inl (by simp [h])
    | gt =>
      refine Or.inr ?_
      rw [(pyCmp_gt_iff p.1 q.1).mp h]
      decide⟩

/-- `sorted` ordering transitivity, from the `pyCmp` congruence and strict
transitivity facts. -/
instance pairLe_trans : IsTrans (Value × Value) pairLe :=
  ⟨fun p q r hpq hqr => by
    unfold pairLe at hpq hqr ⊢
    rcases h1 : pyCmp p.1 q.1 with _ | _ | _
    · rcases h2 : pyCmp q.1 r.1 with _ | _ | _
      · have := (pyCmp_trans_master p.1 q.1 r.1).2 h1 h2
        simp [this]
      · have hc := (pyCmp_trans_master q.1 r.1 p.1).1 h2
        have hqp : pyCmp q.1 p.1 = .gt := (pyCmp_gt_iff q.1 p.1).mpr h1
        have hrp : pyCmp r.1 p.1 = .gt := hc ▸ hqp
        have hlt : pyCmp p.1 r.1 = .lt := (pyCmp_gt_iff r.1 p.1).mp hrp
        simp [hlt]
      · exact absurd h2 hqr
    · have hc := (pyCmp_trans_master p.1 q.1 r.1).1 h1
      rw [hc]
      exact hqr
    · exact absurd h1 hpq⟩

/-- Strict key order: the first pair's key compares `lt` against the
second's. -/
def pairLt (p q : Value × Value) : Prop := pyCmp p.1 q.1 = .lt

theorem pairLt_asym (p q : Value × Value) : pairLt p q → pairLt q p → False := by
  intro h1 h2
  unfold pairLt at h1 h2
  have hg : pyCmp q.1 p.1 = .gt := (pyCmp_gt_iff q.1 p.1).mpr h1
  rw [h2] at hg
  cases hg

/-- Distinct-keys relation on stored pairs (CPython dict keys are pairwise
`cmp`-distinct within one dict). -/
def keyNe (p q : Value × Value) : Prop := pyCmp p.1 q.1 ≠ .eq

theorem keyNe_symm : Symmetric keyNe := by
  intro p q h hc
  exact h ((pyCmp_eq_symm q.1 p.1).mp hc)

/-- Two lists that are permutations of each other and both pairwise-ordered
by an asymmetric relation are equal. -/
theorem pairwise_perm_eq {α : Type} (r : α → α → Prop)
    (hasym : ∀ a b, r a b → r b a → False) :
    ∀ l1 l2 : List α, l1.Perm l2 → l1.Pairwise r → l2.Pairwise r → l1 = l2 := by
  intro l1
  induction l1 with
  | nil =>
    intro l2 hp _ _
    exact hp.nil_eq
  | cons a t ih =>
    intro l2 hp h1 h2
    cases l2 with
    | nil => exact List.noConfusion hp.symm.nil_eq
    | cons b t2 =>
      by_cases hab : a = b
      · subst hab
        rw [ih t2 hp.cons_inv h1.of_cons h2.of_cons]
      · exfalso
        have hbmem : b ∈ a :: t := hp.symm.subset (List.mem_cons_self b t2)
        have hbt : b ∈ t := by
          rcases List.mem_cons.mp hbmem with h | h
          · exact absurd h.symm hab
          · exact h
        have hamem : a ∈ b :: t2 := hp.subset (List.mem_cons_self a t)
        have hat2 : a ∈ t2 := by
          rcases List.mem_cons.mp hamem with h | h
          · exact absurd h hab
          · exact h
        exact hasym a b ((List.pairwise_cons.mp h1).1 b hbt)
          ((List.pairwise_cons.mp h2).1 a hat2)

/-- The sort's output is strictly ordered on keys whenever the input dict
had pairwise `cmp`-distinct keys. -/
theorem insertionSort_pairLt (ps : List (Value × Value))
    (hne : ps.Pairwise keyNe) :
    (List.insertionSort pairLe ps).Pairwise pairLt := by
  have hsorted : (List.insertionSort pairLe ps).Pairwise pairLe :=
    List.sorted_insertionSort pairLe ps
  have hne' : (List.insertionSort pairLe ps).Pairwise keyNe :=
    (List.Perm.pairwise_iff (fun h => keyNe_symm h) (List.perm_insertionSort pairLe ps)).mpr hne
  refine (List.Pairwise.and hsorted hne').imp ?_
  intro a b hab
  obtain ⟨hle, hnee⟩ := hab
  unfold pairLe at hle
  unfold keyNe at hnee
  unfold pairLt
  cases h : pyCmp a.1 b.1 with
  | lt => rfl
  | eq => exact absurd h hnee
  | gt => exact absurd h hle

/-- Canonicality of the key sort: any two orderings of the same dict are
sorted to the same pair list. -/
theorem sort_canonical (ps qs : List (Value × Value)) (hperm : ps.Perm qs)
    (hne : ps.Pairwise keyNe) :
    List.insertionSort pairLe ps = List.insertionSort pairLe qs := by
  have hq : qs.Pairwise keyNe :=
    (List.Perm.pairwise_iff (fun h => keyNe_symm h) hperm).mp hne
  refine pairwise_perm_eq pairLt pairLt_asym _ _ ?_
    (insertionSort_pairLt ps hne) (insertionSort_pairLt qs hq)
  exact (List.perm_insertionSort pairLe ps).trans
    (hperm.trans (List.perm_insertionSort pairLe qs).symm)

/-- Equation for the encoder on the map variant. -/
theorem ser_map (ps : List (Value × Value)) :
    ser (Value.map ps) =
      (do
        let lb ← i32Enc ps.length
        let pb ← serPairs (List.insertionSort pairLe ps)
        pure (8 :: lb ++ pb)) := by
  unfold ser
  rfl

/-! ## Claim C2 — map canonicality -/

/-- Byte-string lexicographic strict comparison ("byte-level comparison"
of two serialized forms). -/
def byteLexLt : List Nat → List Nat → Bool
  | [], [] => false
  | [], _ :: _ => true
  | _ :: _, [] => false
  | a :: as, b :: bs =>
    if a < b then true else if b < a then false else byteLexLt as bs

/-- Modelled from the spec's words, not from the source: "keys appear in
ascending order as defined by the codec's byte-level comparison on their
serialized forms".  Takes the serialized key bytes in emitted order. -/
def specKeyBytesAscending : List (List Nat) → Bool
  | [] => true
  | [_] => true
  | a :: b :: t => byteLexLt a b && specKeyBytesAscending (b :: t)

instance : DecidableRel keyNe := fun p q => by
  unfold keyNe
  infer_instance

/-- C2 (amended): map serialization is canonical over insertion order —
for any two pair lists that are permutations of one another with pairwise
`cmp`-distinct keys (two traversal orders of one dict), the encoder
produces identical bytes.  The emitted key order is ascending CPython-2
`cmp` order on the key objects themselves; `C2_counterexample` shows it is
not the "byte-level comparison of the keys' serialized forms" that the
spec claims. -/
theorem C2_map_canonical (ps qs : List (Value × Value)) (hperm : ps.Perm qs)
    (hne : ps.Pairwise keyNe) :
    Serialize (Value.map ps) = Serialize (Value.map qs) := by
  unfold Serialize
  rw [ser_map, ser_map, hperm.length_eq, sort_canonical ps qs hperm hne]

/-- The dict `{"b": 1, "aa": 0}` in one traversal order. -/
def c2Dict : List (Value × Value) :=
  [(Value.bytes (ascii "b"), Value.int 1),
   (Value.bytes (ascii "aa"), Value.int 0)]

/-- C2 counterexample to the stated key order: `"aa" < "b"` under CPython
`cmp` (bytewise on the string contents), but the serialized forms compare
the other way (`[4,0,0,0,1,98] < [4,0,0,0,2,97,97]` byte-lexicographically,
the length prefix deciding at offset 4).  The encoder emits the `"aa"`
pair first, so the emitted serialized keys are *not* in ascending
byte-level order of serialized forms. -/
theorem C2_counterexample :
    Serialize (Value.bytes (ascii "aa")) = some [4, 0, 0, 0, 2, 97, 97] ∧
    Serialize (Value.bytes (ascii "b")) = some [4, 0, 0, 0, 1, 98] ∧
    byteLexLt [4, 0, 0, 0, 1, 98] [4, 0, 0, 0, 2, 97, 97] = true ∧
    specKeyBytesAscending [[4, 0, 0, 0, 2, 97, 97], [4, 0, 0, 0, 1, 98]] = false ∧
    Serialize (Value.map c2Dict) =
      some ([8, 0, 0, 0, 2] ++
        ([0, 0, 0, 2, 1] ++ [4, 0, 0, 0, 2, 97, 97] ++ [1, 0, 0, 0, 0]) ++
        ([0, 0, 0, 2, 1] ++ [4, 0, 0, 0, 1, 98] ++ [1, 0, 0, 0, 1])) := by
  refine ⟨?_, ?_, by decide, by decide, ?_⟩
  · simp [Serialize, ser, bytesBody, i32Enc, ascii]
  · simp [Serialize, ser, bytesBody, i32Enc, ascii]
  · have hsort : List.insertionSort pairLe c2Dict =
        [(Value.bytes (ascii "aa"), Value.int 0),
         (Value.bytes (ascii "b"), Value.int 1)] := by
      simp [c2Dict, List.insertionSort, List.orderedInsert, pairLe, pyCmp,
        Value.scalarKey, lexCmpZ, cmpZ, ascii, Ordering.then]
    unfold Serialize
    rw [ser_map, hsort]
    simp [c2Dict, serPairs, ser, i32Enc, u8Enc, bytesBody, ascii]

theorem C2_map_canonical_witness :
    c2Dict.Perm
      [(Value.bytes (ascii "aa"), Value.int 0),
       (Value.bytes (ascii "b"), Value.int 1)] ∧
    c2Dict.Pairwise keyNe ∧
    Serialize (Value.map c2Dict) =
      Serialize (Value.map
        [(Value.bytes (ascii "aa"), Value.int 0),
         (Value.bytes (ascii "b"), Value.int 1)]) :=
  ⟨List.Perm.swap _ _ _, by decide,
    C2_map_canonical _ _ (List.Perm.swap _ _ _) (by decide)⟩

/-! ## The service layer (packet.py, service.py)

Dictionaries are modelled as association lists, CPython module/class/
instance namespaces as explicit name lists, and exceptions as an error
type threaded through `Except`. -/

/-- Python exceptions raised by the modelled code paths. -/
inductive PyErr where
  | nameError (n : String)
  | attributeError (n : String)
  | keyError (k : String)
  | runtimeError (msg : String)
  | valueError (msg : String)
  deriving DecidableEq

/-- `packet.Packet`: command byte and attribute dict.  An `Option.none`
field models a CPython instance whose `__dict__` lacks the slot, which
sends the attribute read through `Packet.__getattr__`. -/
structure Packet where
  cmd : Option Int
  attrs : Option (List (String × Value))

/-- Module-level names bound in packet.py: its one import and its class. -/
def packetGlobals : List String := ["serialize", "Packet"]

/-- Module-level names bound in service.py: the seven imports and the
module's classes. -/
def serviceGlobals : List String :=
  ["threading", "Queue", "socket", "select", "traceback", "serialize",
   "packet", "proxy", "NOMError", "LoggedSocket", "Deferred",
   "DeferredResult", "ObjectTranslator", "RemoteReference", "CMD",
   "Client", "Authorizor", "Service"]

/-- CPython name lookup at module scope (none of the looked-up names
below is a builtin).  Only resolution success matters to the modelled
paths, so the value is unit. -/
def pyName (globalNames : List String) (n : String) : Except PyErr Unit :=
  if globalNames.contains n then .ok () else .error (.nameError n)

/-- The members of the class `CMD` in service.py (the `NAMES` reverse map
is attached after the class body; there is no `KEEPALIVE`). -/
def cmdClassAttrs : List (String × Int) :=
  [("SYNC", 0), ("DESYNC", 1), ("PULL", 2), ("RESOLVE", 3), ("LIST", 4),
   ("PUSH", 5)]

namespace Packet

/-- Reading `pkt.cmd` when the slot is missing runs the
`Packet.__getattr__` branch `self.cmd=CMD.KEEPALIVE`.  Evaluating
`CMD.KEEPALIVE` first resolves the name `CMD` against `packetGlobals`
(packet.py binds no such name, and it is not a builtin); were it somehow
bound to service.py's `CMD` class, the attribute read would still fail,
since that class has no `KEEPALIVE` member (`cmdClassAttrs`). -/
def readCmd (p : Packet) : Except PyErr Int :=
  match p.cmd with
  | some c => .ok c
  | Option.none =>
      match pyName packetGlobals "CMD" with
      | .error e => .error e
      | .ok _ =>
          match cmdClassAttrs.find? (fun kv => kv.1 == "KEEPALIVE") with
          | some kv => .ok kv.2
          | Option.none => .error (.attributeError "KEEPALIVE")

/-- Reading `pkt.attrs` when the dict is missing: `__getattr__` installs
and returns `{}`. -/
def readAttrs (p : Packet) : List (String × Value) :=
  match p.attrs with
  | some m => m
  | Option.none => []

/-- `Packet.Has(attr)`: membership in the attribute dict. -/
def Has (p : Packet) (a : String) : Bool :=
  (readAttrs p).any (fun kv => kv.1 == a)

/-- `pkt.<a>` for a name other than `cmd`/`attrs`: `self.attrs[a]`,
`KeyError` when absent. -/
def getAttr (p : Packet) (a : String) : Except PyErr Value :=
  match (readAttrs p).find? (fun kv => kv.1 == a) with
  | some kv => .ok kv.2
  | Option.none => .error (.keyError a)

end Packet

/-! ### Claim C6 — packet attribute defaults -/

/-- C6 (code bug): a `Packet` lacking its `attrs` dict does read back an
empty mapping, but one lacking `cmd` does not yield a `KEEPALIVE`
default: the fallback expression `CMD.KEEPALIVE` in `Packet.__getattr__`
references the name `CMD`, which packet.py never binds (packet.py imports
only `serialize`), so the read raises `NameError('CMD')` — and service.py's
`CMD` class defines no `KEEPALIVE` member in any case. -/
theorem C6_packet_defaults (p : Packet) :
    (p.cmd = Option.none → Packet.readCmd p = .error (.nameError "CMD")) ∧
    (p.attrs = Option.none → Packet.readAttrs p = []) ∧
    packetGlobals.contains "CMD" = false ∧
    cmdClassAttrs.any (fun kv => kv.1 == "KEEPALIVE") = false := by
  refine ⟨?_, ?_, rfl, rfl⟩
  · intro h
    simp only [Packet.readCmd, h]
    rfl
  · intro h
    simp only [Packet.readAttrs, h]

/-! ### Claim C3 — transaction ids -/

/-- `Service.NewXID`: `cls.XID=(cls.XID+1)&0xffffffff; return cls.XID-1`.
The state is the class variable `XID`; masking with `0xffffffff` is
reduction modulo `2^32`.  Note the return value is computed from the
*updated* counter, minus one. -/
def NewXID (s : Nat) : Nat × Int :=
  let s2 := (s + 1) % 4294967296
  (s2, (s2 : Int) - 1)

/-- The class variable after `n` calls (class initialiser: `XID=0`). -/
def xidState : Nat → Nat
  | 0 => 0
  | n + 1 => (NewXID (xidState n)).1

/-- The xid returned by the `n`-th call, counting from 0. -/
def xidRet (n : Nat) : Int := (NewXID (xidState n)).2

theorem xidState_eq (n : Nat) : xidState n = n % 4294967296 := by
  induction n with
  | zero => rfl
  | succ n ih =>
    show (xidState n + 1) % 4294967296 = (n + 1) % 4294967296
    rw [ih]
    omega

theorem xidRet_eq (n : Nat) :
    xidRet n = (((n + 1) % 4294967296 : Nat) : Int) - 1 := by
  unfold xidRet NewXID
  rw [xidState_eq]
  have h : (n % 4294967296 + 1) % 4294967296 = (n + 1) % 4294967296 := by
    omega
  simp only [h]

/-- C3 (amended): every returned xid lies in `[-1, 2^32 - 2]` — not in the
claimed `[0, 2^32)`, since the call made at the rollover returns `-1`
(`C3_counterexample`) — and successive returns do increase by exactly 1
modulo `2^32`. -/
theorem C3_xid_sequence (n : Nat) :
    (-1 ≤ xidRet n ∧ xidRet n ≤ 4294967294) ∧
    (xidRet (n + 1) - xidRet n) % 4294967296 = 1 := by
  rw [xidRet_eq n, xidRet_eq (n + 1)]
  constructor
  · have h : (n + 1) % 4294967296 < 4294967296 := by omega
    omega
  · omega

/-- C3 counterexample: the `2^32`-th call (made while the counter holds
`2^32 - 1`) wraps the counter to 0 and returns `0 - 1 = -1`, outside the
claimed range `[0, 2^32)`. -/
theorem C3_counterexample :
    xidRet 4294967295 = -1 ∧ ¬(0 ≤ xidRet 4294967295) := by
  rw [xidRet_eq]
  norm_num

/-! ### Claim C4 — DeferredResult.GetResult -/

/-- The fields of a `DeferredResult` that `GetResult` consults: the
readiness flag and the accepted reply packet (`self.result` is `None`
until a matching reply is accepted). -/
structure DeferredResultState where
  ready : Bool
  result : Option Packet

/-- `DeferredResult.GetResult`.  The error branch executes
`raise pkt.result.error`: the name `pkt` is resolved against
`serviceGlobals` (it is neither a local of `GetResult` nor a module
global — the module binding is `packet`, the module itself), so the
branch raises `NameError('pkt')`.  (The counterfactual `.ok` arm: were
`pkt` bound, it could only be a module object, which has no `result`
attribute.) -/
def GetResult (d : DeferredResultState) : Except PyErr Value :=
  if !d.ready then .error (.runtimeError "Value not available yet")
  else
    match d.result with
    | Option.none => .error (.attributeError "Has")
    | some pk =>
        if Packet.Has pk "error" then
          match pyName serviceGlobals "pkt" with
          | .error e => .error e
          | .ok _ => .error (.attributeError "result")
        else
          Packet.getAttr pk "result"

/-- C4 (code bug): `GetResult` fails not-ready (`RuntimeError`) when the
deferred has not completed, and returns the reply's `result` attribute
when the reply carries no `error`; but when the reply carries `error`,
the raise statement references the undefined name `pkt`
(`raise pkt.result.error`), so the caller gets `NameError('pkt')` instead
of the carried error. -/
theorem C4_get_result (d : DeferredResultState) :
    (d.ready = false →
      GetResult d = .error (.runtimeError "Value not available yet")) ∧
    (∀ pk, d.ready = true → d.result = some pk → Packet.Has pk "error" = true →
      GetResult d = .error (.nameError "pkt")) ∧
    (∀ pk, d.ready = true → d.result = some pk → Packet.Has pk "error" = false →
      GetResult d = Packet.getAttr pk "result") ∧
    serviceGlobals.contains "pkt" = false := by
  refine ⟨?_, ?_, ?_, rfl⟩
  · intro h
    simp [GetResult, h]
  · intro pk hr hres herr
    simp [GetResult, hr, hres, herr, pyName, serviceGlobals]
  · intro pk hr hres herr
    simp [GetResult, hr, hres, herr]

/-! ### Claims C5 and C10 — object table -/

/-- A network address `(host, port)`, as `socket.getsockname` returns. -/
structure Addr where
  host : String
  port : Int
  deriving DecidableEq

/-- The `Service` state the object table uses: the bound address, `omap`
(`id -> object tracked`, the object represented by its `id()` token) and
`pubmap` (`public object name -> id`). -/
structure ServiceState where
  addr : Addr
  omap : List (Int × Nat)
  pubmap : List (String × Int)

/-- Dict lookup `omap[oid]` (keys are unique in a dict, so the first
match is the entry). -/
def omapFind (m : List (Int × Nat)) (k : Int) : Option Nat :=
  (m.find? (fun kv => kv.1 == k)).map (fun kv => kv.2)

/-- What `ObjectTranslator.Deserialize` evaluates to: a local object from
`omap`, or a `Proxy` around a fresh `RemoteReference` for the given oid
whose client is `GetClient(addr)` (the peer at that address). -/
inductive Handle where
  | localObj (o : Nat)
  | proxyRef (oid : Int) (peer : Addr)
  deriving DecidableEq

/-- `ObjectTranslator.Deserialize` after the two codec reads (`oid` from
`LongSerializer`, `addr` from `SequenceSerializer`, as a tuple): a
`KeyError` from `omap[oid]` is re-raised as
`ValueError('Bad OID in serialized data')`. -/
def translatorDeserialize (s : ServiceState) (oid : Int) (addr : Addr) :
    Except PyErr Handle :=
  if addr = s.addr then
    match omapFind s.omap oid with
    | some o => .ok (.localObj o)
    | Option.none => .error (.valueError "Bad OID in serialized data")
  else
    .ok (.proxyRef oid addr)

/-- C5: a handle whose decoded owner address equals the service's own
address maps to the identical stored object when the oid is present in
`omap` and fails with the bad-oid `ValueError` when absent; a handle
owned elsewhere becomes a proxy reference for that oid and peer. -/
theorem C5_translator_deserialize (s : ServiceState) (oid : Int) (addr : Addr) :
    (addr = s.addr → ∀ o, omapFind s.omap oid = some o →
      translatorDeserialize s oid addr = .ok (.localObj o)) ∧
    (addr = s.addr → omapFind s.omap oid = Option.none →
      translatorDeserialize s oid addr =
        .error (.valueError "Bad OID in serialized data")) ∧
    (addr ≠ s.addr →
      translatorDeserialize s oid addr = .ok (.proxyRef oid addr)) := by
  refine ⟨?_, ?_, ?_⟩
  · intro h o ho
    simp [translatorDeserialize, h, ho]
  · intro h ho
    simp [translatorDeserialize, h, ho]
  · intro h
    simp [translatorDeserialize, h]

/-- `Service.Unregister(name)`: `del self.pubmap[name]` with `KeyError`
swallowed — total, and touching only `pubmap`. -/
def Unregister (s : ServiceState) (name : String) : ServiceState :=
  { s with pubmap := s.pubmap.eraseP (fun kv => kv.1 == name) }

theorem eraseP_key_gone (name : String) :
    ∀ l : List (String × Int), l.Pairwise (fun a b => a.1 ≠ b.1) →
      ∀ kv ∈ l.eraseP (fun kv => kv.1 == name), kv.1 ≠ name := by
  intro l
  induction l with
  | nil =>
    intro _ kv hkv
    simp [List.eraseP] at hkv
  | cons a t ih =>
    intro hp kv hkv
    by_cases ha : a.1 = name
    · rw [List.eraseP_cons_of_pos (by simp [ha])] at hkv
      have hane := (List.pairwise_cons.mp hp).1 kv hkv
      rw [ha] at hane
      exact fun hc => hane hc.symm
    · rw [List.eraseP_cons_of_neg (by simp [ha])] at hkv
      rcases List.mem_cons.mp hkv with h | h
      · rw [h]
        exact ha
      · exact ih (List.pairwise_cons.mp hp).2 kv h

/-- C10: `Unregister` never raises (it is total) and only shrinks the
directory: `omap` and the address are untouched; when the name is absent
`pubmap` is returned unchanged; every other entry survives; afterwards no
entry carries the name; and nothing is added. -/
theorem C10_unregister (s : ServiceState) (name : String)
    (hkeys : s.pubmap.Pairwise (fun a b => a.1 ≠ b.1)) :
    (Unregister s name).omap = s.omap ∧
    (Unregister s name).addr = s.addr ∧
    ((∀ kv ∈ s.pubmap, kv.1 ≠ name) → (Unregister s name).pubmap = s.pubmap) ∧
    (∀ kv ∈ s.pubmap, kv.1 ≠ name → kv ∈ (Unregister s name).pubmap) ∧
    (∀ kv ∈ (Unregister s name).pubmap, kv.1 ≠ name ∧ kv ∈ s.pubmap) ∧
    (Unregister s name).pubmap.Sublist s.pubmap := by
  refine ⟨rfl, rfl, ?_, ?_, ?_, List.eraseP_sublist _⟩
  · intro h
    exact List.eraseP_of_forall_not (fun kv hkv => by simp [h kv hkv])
  · intro kv hkv hne
    exact (List.mem_eraseP_of_neg (by simp [hne])).mpr hkv
  · intro kv hkv
    exact ⟨eraseP_key_gone name s.pubmap hkeys kv hkv,
      (List.eraseP_sublist _).mem hkv⟩

theorem C10_unregister_witness :
    (Unregister ⟨⟨"h", 1⟩, [(5, 7)], [("x", 1), ("y", 2)]⟩ "z").omap =
      [(5, 7)] ∧
    (Unregister ⟨⟨"h", 1⟩, [(5, 7)], [("x", 1), ("y", 2)]⟩ "z").pubmap =
      [("x", 1), ("y", 2)] :=
  ⟨(C10_unregister ⟨⟨"h", 1⟩, [(5, 7)], [("x", 1), ("y", 2)]⟩ "z"
      (by simp)).1,
   (C10_unregister ⟨⟨"h", 1⟩, [(5, 7)], [("x", 1), ("y", 2)]⟩ "z"
      (by simp)).2.2.1 (by simp)⟩

/-! ### Claim C8 — default authorizer -/

/-- `Authorizor.CanClientSync` ignores its client. -/
def CanClientSync (_cli : Addr) : Bool := true

/-- `startswith('_')` on the two string variants (code point 95 is the
underscore); any other value has no `startswith` method. -/
def startswithUnderscore : Value → Option Bool
  | .bytes s => some (match s with | c :: _ => c == 95 | [] => false)
  | .text cs => some (match cs with | c :: _ => c == 95 | [] => false)
  | _ => Option.none

/-- `Authorizor.CanClientAccess(client, obj, pkt)` (the default authorizer
reads neither `client` nor `obj`): deny exactly when the packet carries an
`attr` whose value starts with an underscore. -/
def CanClientAccess (pkt : Packet) : Except PyErr Bool :=
  if Packet.Has pkt "attr" then
    match Packet.getAttr pkt "attr" with
    | .ok v =>
        match startswithUnderscore v with
        | some b => .ok (!b)
        | Option.none => .error (.attributeError "startswith")
    | .error e => .error e
  else
    .ok true

/-- C8: the default authorizer lets every client sync, and
`CanClientAccess` is `false` exactly on packets whose `attr` value (a
string, per the well-known attribute types) starts with an underscore,
`true` on every other packet. -/
theorem C8_authorizor (cli : Addr) (pkt : Packet) :
    CanClientSync cli = true ∧
    (Packet.Has pkt "attr" = false → CanClientAccess pkt = .ok true) ∧
    (∀ v b, Packet.getAttr pkt "attr" = .ok v →
      startswithUnderscore v = some b → CanClientAccess pkt = .ok (!b)) := by
  refine ⟨rfl, ?_, ?_⟩
  · intro h
    simp [CanClientAccess, h]
  · intro v b hv hb
    have hhas : Packet.Has pkt "attr" = true := by
      unfold Packet.getAttr at hv
      unfold Packet.Has
      cases hf : (Packet.readAttrs pkt).find? (fun kv => kv.1 == "attr") with
      | none =>
        rw [hf] at hv
        cases hv
      | some kv =>
        have := List.find?_some hf
        have hmem := List.mem_of_find?_eq_some hf
        exact List.any_eq_true.mpr ⟨kv, hmem, this⟩
    simp [CanClientAccess, hhas, hv, hb]

/-! ### Claim C7 — the DelItem misspelling -/

/-- The attribute names a `Service` instance exposes: the class body's
methods and class variables plus the instance attributes `__init__`
assigns.  (The `threading.Thread` base contributes `start`, `join`,
`daemon`, … — nothing spelled `Delitem`.) -/
def serviceAttrNames : List String :=
  ["BUFSIZE", "XID", "NewXID", "Connect", "Disconnect", "Register",
   "Unregister", "Resolve", "List", "GetClient", "SendPacket", "GetAttr",
   "SetAttr", "DelAttr", "GetItem", "SetItem", "DelItem", "Len", "Repr",
   "Str", "Call", "run", "cmd_SYNC", "cmd_DESYNC", "cmd_PULL",
   "cmd_PULL_inner", "cmd_RESOLVE", "cmd_LIST", "cmd_Unknown",
   "pull_GetAttr", "pull_SetAttr", "pull_DelAttr", "pull_GetItem",
   "pull_SetItem", "pull_DelItem", "pull_Len", "pull_Repr", "pull_Str",
   "pull_Call", "sock", "addr", "auth", "omap", "pubmap", "outstanding",
   "clients", "daemon", "start", "join"]

/-- The `PULL` request a `Service` item/attr helper builds via
`SendPacket` (op, oid and the payload attribute). -/
structure PullRequest where
  op : String
  oid : Int
  item : Value

/-- `Service.DelItem(cli, oid, item)`:
`SendPacket(cli, op='DelItem', oid=oid, item=item)`. -/
def serviceDelItemReq (oid : Int) (item : Value) : PullRequest :=
  { op := "DelItem", oid := oid, item := item }

/-- `RemoteReference.DelItem(item)` (either mode): the body reads the
attribute `Delitem` off the service (`self.srv.Delitem(...)`).  The
lookup is modelled against `serviceAttrNames`; a miss raises
`AttributeError` before anything is sent.  (The `.ok` arm is the request
the correctly-spelt `Service.DelItem` would build.) -/
def remoteDelItem (oid : Int) (item : Value) : Except PyErr PullRequest :=
  if serviceAttrNames.contains "Delitem" then .ok (serviceDelItemReq oid item)
  else .error (.attributeError "Delitem")

/-- C7 (code bug): `Service` defines `DelItem` but the remote-reference
call site spells `self.srv.Delitem`, so every `RemoteReference.DelItem`
raises `AttributeError('Delitem')` — in both blocking and non-blocking
modes — and the `op='DelItem'` PULL is never issued. -/
theorem C7_delitem (oid : Int) (item : Value) :
    serviceAttrNames.contains "DelItem" = true ∧
    serviceAttrNames.contains "Delitem" = false ∧
    remoteDelItem oid item = .error (.attributeError "Delitem") ∧
    serviceDelItemReq oid item = { op := "DelItem", oid := oid, item := item } :=
  ⟨rfl, rfl, rfl, rfl⟩

/-! ### Claim C9 — waiter-registration ordering -/

/-- The shared-state effects of the outbound request path, in program
order. -/
inductive Ev where
  | insertOutstanding (xid : Int)
  | addWaiting (xid : Int)
  | transmit (xid : Int)
  | condWait (xid : Int)
  deriving DecidableEq

/-- `Service.SendPacket` after minting `xid`: construct the
`DeferredResult` (whose `onwait` closure holds the UDP send) and insert
it into `self.outstanding[xid]`; nothing is transmitted yet. -/
def SendPacketOps (xid : Int) : List Ev := [.insertOutstanding xid]

/-- `Deferred.Go`, run under the shared condition: `WAITING.add(self)`,
then `self.onwait()` — for a `SendPacket`-built deferred, the
`sock.sendto` of the request datagram. -/
def GoOps (xid : Int) : List Ev := [.addWaiting xid, .transmit xid]

/-- `Deferred.Wait`: `Go()` first, then block on the condition. -/
def WaitOps (xid : Int) : List Ev := GoOps xid ++ [.condWait xid]

/-- A blocking request: `SendPacket` returns the deferred, then the
caller invokes `Wait` (`DeferredResult.Wait` delegates to `Deferred.Wait`
while not ready). -/
def BlockingSendOps (xid : Int) : List Ev := SendPacketOps xid ++ WaitOps xid

/-- The observable shared state: `outstanding` (xids), the waiter set and
the transmitted datagrams. -/
structure SvcObs where
  outstanding : List Int
  waiting : List Int
  sent : List Int
  deriving DecidableEq

def applyEv (s : SvcObs) : Ev → SvcObs
  | .insertOutstanding x => { s with outstanding := x :: s.outstanding }
  | .addWaiting x => { s with waiting := x :: s.waiting }
  | .transmit x => { s with sent := x :: s.sent }
  | .condWait _ => s

def runOps (s : SvcObs) (ops : List Ev) : SvcObs := ops.foldl applyEv s

/-- C9: along every prefix of the blocking-request event sequence, once
the request datagram for `xid` has been transmitted, the waiter is
already in the waiting set and the deferred already in `outstanding`.
Since a reply to `xid` can only follow its transmit, a reply can never
arrive before its waiter is registered. -/
theorem C9_waiter_registered (xid : Int) (s0 : SvcObs) (pre : List Ev)
    (hpre : pre <+: BlockingSendOps xid) (hnew : xid ∉ s0.sent)
    (hsent : xid ∈ (runOps s0 pre).sent) :
    xid ∈ (runOps s0 pre).waiting ∧ xid ∈ (runOps s0 pre).outstanding := by
  obtain ⟨t, ht⟩ := hpre
  simp only [BlockingSendOps, SendPacketOps, WaitOps, GoOps,
    List.cons_append, List.nil_append] at ht
  rcases pre with _ | ⟨a, _ | ⟨b, _ | ⟨c, _ | ⟨d, rest⟩⟩⟩⟩
  · exact absurd hsent hnew
  · simp only [List.cons_append, List.cons.injEq] at ht
    obtain ⟨rfl, -⟩ := ht
    exact absurd hsent hnew
  · simp only [List.cons_append, List.cons.injEq] at ht
    obtain ⟨rfl, rfl, -⟩ := ht
    exact absurd hsent hnew
  · simp only [List.cons_append, List.cons.injEq] at ht
    obtain ⟨rfl, rfl, rfl, -⟩ := ht
    refine ⟨?_, ?_⟩ <;> simp [runOps, applyEv]
  · simp only [List.cons_append, List.cons.injEq] at ht
    obtain ⟨rfl, rfl, rfl, rfl, hrest⟩ := ht
    have : rest = [] := by
      cases rest with
      | nil => rfl
      | cons e r => simp at hrest
    subst this
    refine ⟨?_, ?_⟩ <;> simp [runOps, applyEv]

theorem C9_waiter_registered_witness :
    (0 : Int) ∈ (runOps ⟨[], [], []⟩ (BlockingSendOps 0)).waiting ∧
    (0 : Int) ∈ (runOps ⟨[], [], []⟩ (BlockingSendOps 0)).outstanding :=
  C9_waiter_registered 0 ⟨[], [], []⟩ (BlockingSendOps 0) List.prefix_rfl
    (by decide) (by decide)

end Nom
